import Mathlib

/-!
Verification of the talc allocator core (`src/lib.rs`) against its
natural-language specification.

The heap is modelled at chunk granularity: the allocatable sub-span is
represented as the ordered list of its chunks, each carrying its base
address, acme (one-past-end) address and free/allocated flag.  All address
arithmetic (alignment, minimum chunk sizes, carve points) follows the source
byte-for-byte; metadata that the source stores inside the arena (tags,
boundary size words, intrusive-list nodes) is represented by the chunk list
itself, relying on the source's own invariants I4/I5/I6 that keep those
in-memory encodings in sync with the chunk structure.  The bitmap index
(`next_bin`) and the bin-array level of `get_sufficient_chunk` are embedded
separately at full bit precision.  Helper functions living in the
repository's `utils.rs` / `span.rs` / `tag.rs` (not part of the provided
sources) are modelled from the specification and marked as such.
-/

namespace TalcModel

/-- `WORD_SIZE` from the source: `size_of::<usize>()` on a 64-bit target. -/
def WORD_SIZE : Nat := 8

/-- `ALIGN` from the source: `align_of::<usize>()`. -/
def ALIGN : Nat := 8

/-- `NODE_SIZE` from the source: `size_of::<LlistNode>()` = two pointers. -/
def NODE_SIZE : Nat := 16

/-- `TAG_SIZE` from the source: `size_of::<Tag>()` = one word. -/
def TAG_SIZE : Nat := 8

/-- `MIN_CHUNK_SIZE = NODE_SIZE + WORD_SIZE` from the source. -/
def MIN_CHUNK_SIZE : Nat := 24

/-- `BIN_COUNT = usize::BITS * 2` from the source. -/
def BIN_COUNT : Nat := 128

/-- Modelled from the spec: `align_up` from the missing `utils.rs`,
`(p + ALIGN - 1) & !(ALIGN - 1)` — round up to the word boundary. -/
def alignUp (p : Nat) : Nat := (p + 7) / 8 * 8

/-- Modelled from the spec: `align_down` from the missing `utils.rs`,
`p & !(ALIGN - 1)` — round down to the word boundary. -/
def alignDown (p : Nat) : Nat := p / 8 * 8

/-- Modelled from the spec: `align_up_by(p, mask)` from the missing
`utils.rs`, rounding `p` up to a multiple of `mask + 1 = align`.
The parameter here is the alignment itself rather than the mask. -/
def alignUpBy (p align : Nat) : Nat := (p + (align - 1)) / align * align

/-- Modelled from the spec: `is_chunk_size(base, acme)` from the missing
`utils.rs` — the span holds at least `MIN_CHUNK_SIZE` bytes (§3.1). -/
def isChunkSize (base acme : Nat) : Bool := MIN_CHUNK_SIZE ≤ acme - base

/-- `Talc::required_chunk_size` from the source (lib.rs lines 110-116). -/
def requiredChunkSize (size : Nat) : Nat :=
  if size ≤ MIN_CHUNK_SIZE - TAG_SIZE then MIN_CHUNK_SIZE
  else alignUp (size + TAG_SIZE)

/-- Modelled from the spec: `required_acme(alloc_base, size, tag_ptr)` from
the missing `utils.rs` — the required chunk acme is the higher of the
aligned allocation end and the minimum chunk size above the tag
(§4.5 step 6, mirroring the explicit computation in `grow`, §4.7). -/
def requiredAcme (allocBase size tagPtr : Nat) : Nat :=
  max (alignUp (allocBase + size)) (tagPtr + MIN_CHUNK_SIZE)

/-- `core::alloc::Layout`: a size and an alignment. -/
structure Layout where
  size : Nat
  align : Nat
  deriving DecidableEq, Repr

/-- `AllocError` from the missing `utils.rs`: a unit error value. -/
structure AllocError where
  deriving DecidableEq, Repr

/-- Modelled from the spec: `Span` from the missing `span.rs`, a half-open
address interval `[base, acme)` (§4.1). -/
structure Span where
  base : Nat
  acme : Nat
  deriving DecidableEq, Repr

/-- Modelled from the spec: `Span::empty()`. -/
def Span.empty : Span := ⟨0, 0⟩

/-- Modelled from the spec: `Span::new(base, acme)`; a degenerate pair
becomes the empty span (source comment at lib.rs lines 594-595). -/
def Span.new (base acme : Nat) : Span :=
  if acme ≤ base then Span.empty else ⟨base, acme⟩

/-- Modelled from the spec: `Span::contains(addr)`. -/
def Span.contains (s : Span) (p : Nat) : Bool :=
  s.base ≤ p && p < s.acme

/-- Modelled from the spec: `Span::contains_span`; empty spans are contained
by every span (§4.1). -/
def Span.containsSpan (s t : Span) : Bool :=
  if t.acme ≤ t.base then true else s.base ≤ t.base && t.acme ≤ s.acme

/-- Modelled from the spec: `Span::word_align_inward` — round the base up
and the acme down to `ALIGN` (§4.1). -/
def Span.wordAlignInward (s : Span) : Span :=
  ⟨alignUp s.base, alignDown s.acme⟩

/-- Modelled from the spec: `Span::get_base_acme` — the pair iff the span is
non-empty (§4.1). -/
def Span.getBaseAcme (s : Span) : Option (Nat × Nat) :=
  if s.base < s.acme then some (s.base, s.acme) else none

/-- One chunk of the allocatable sub-span: its base and acme addresses and
whether it is free.  This is the chunk-granularity image of the in-arena
encoding of §3.1 (free chunks: node + boundary size words; allocated
chunks: a `Tag` word holding the acme and the flag bits). -/
structure Chunk where
  base : Nat
  acme : Nat
  free : Bool
  deriving DecidableEq, Repr

/-- The allocator header state at chunk granularity: the arena span, the
allocatable sub-span bounds, and the ordered chunk list.  The availability
bitmap and bins (invariant I4) are represented by the free flags of the
chunk list; `is_top_free` (invariant I6) is derived by `freeTop` below. -/
structure HeapState where
  arena : Span
  abase : Nat
  aacme : Nat
  chunks : List Chunk
  deriving DecidableEq, Repr

/-- The source's `is_top_free` field, derived from the chunk list per
invariant I6: set iff the highest chunk is free. -/
def freeTop (s : HeapState) : Bool :=
  match s.chunks.getLast? with
  | some c => c.free
  | none => false

/-- Whether the first chunk of a list is free (used for the `is_below_free`
neighbour checks, invariant I5). -/
def headFree : List Chunk → Bool
  | [] => false
  | c :: _ => c.free

/-- Whether the last chunk of a list is free. -/
def lastFree (l : List Chunk) : Bool :=
  match l.getLast? with
  | some c => c.free
  | none => false

/-- Invariant I2 at chunk granularity: no two adjacent chunks are both
free. -/
def noAdjFree : List Chunk → Bool
  | [] => true
  | [_] => true
  | a :: b :: t => (!(a.free && b.free)) && noAdjFree (b :: t)

/-- Locate the chunk with base address `cb` in the chunk list, returning
the chunks below it, the chunk itself, and the chunks above it.  This is
the chunk-level image of recovering a chunk from its base pointer. -/
def focus : List Chunk → Nat → Option (List Chunk × Chunk × List Chunk)
  | [], _ => none
  | c :: rest, cb =>
    if c.base = cb then some ([], c, rest)
    else match focus rest cb with
      | some (p, x, q) => some (c :: p, x, q)
      | none => none

/-- `Talc::init` (lib.rs lines 613-688) at chunk granularity.  Panics
(modelled as `none`) if the arena contains the null address.  Otherwise
word-aligns the arena inward, carves the allocated metadata chunk holding
the `BIN_COUNT`-entry bin array at the bottom, registers the remaining top
space when it is at least `MIN_CHUNK_SIZE`, and falls through to the empty
state (`allocatable_base = allocatable_acme = null`) when the arena cannot
hold the metadata.  `BIN_ALIGNMENT = 8` and
`BIN_ARRAY_SIZE = 8 * BIN_COUNT = 1024` as in the source. -/
def initChunk (arena : Span) : Option HeapState :=
  if arena.contains 0 then none
  else
    match (arena.wordAlignInward).getBaseAcme with
    | some (base, acme) =>
      if 8 - 1 + TAG_SIZE ≤ 2 ^ 64 - 1 - base then
        let tagPtr := base
        let metadataPtr := alignUpBy (tagPtr + TAG_SIZE) 8
        if 8 * BIN_COUNT < acme - metadataPtr then
          let metadataAcme := metadataPtr + 8 * BIN_COUNT
          let top := if isChunkSize metadataAcme acme then
              [Chunk.mk metadataAcme acme true] else []
          some ⟨arena, base, acme, Chunk.mk tagPtr metadataAcme false :: top⟩
        else some ⟨arena, 0, 0, []⟩
      else some ⟨arena, 0, 0, []⟩
    | none => some ⟨arena, 0, 0, []⟩

/-- The acceptance test of `Talc::get_sufficient_chunk` (lib.rs lines
259-316) for a single candidate chunk: on the fast path
(`layout.align() <= ALIGN`) a sufficient chunk size; on the over-aligned
path additionally the aligned pointer plus the request must fit under the
chunk acme. -/
def chunkFits (c : Chunk) (layout : Layout) : Bool :=
  let required := requiredChunkSize layout.size
  if layout.align ≤ ALIGN then
    required ≤ c.acme - c.base
  else
    required ≤ c.acme - c.base &&
      alignUpBy (c.base + TAG_SIZE) layout.align + layout.size ≤ c.acme

/-- The user pointer `get_sufficient_chunk` produces for a chunk: the
chunk base offset by the tag on the fast path, the aligned-up pointer on
the over-aligned path. -/
def allocBaseOf (c : Chunk) (layout : Layout) : Nat :=
  if layout.align ≤ ALIGN then c.base + TAG_SIZE
  else alignUpBy (c.base + TAG_SIZE) layout.align

/-- `Talc::malloc` (lib.rs lines 210-257) at chunk granularity, for the
free chunk with base `cb` (the chunk the bin search selected).  Deregisters
the chunk, carves the low remainder back into free space when it is at
least `MIN_CHUNK_SIZE` (otherwise lowering the tag to the chunk base),
carves the high remainder above `required_acme` likewise, and returns the
new state together with the user pointer.  The tag and tag-indirection
writes of the source act on metadata that the chunk list already
represents. -/
def mallocChunk (s : HeapState) (cb : Nat) (layout : Layout) :
    Option (HeapState × Nat) :=
  match focus s.chunks cb with
  | none => none
  | some (pre, c, post) =>
    if c.free && chunkFits c layout then
      let allocBase := allocBaseOf c layout
      let preAllocPtr := alignDown (allocBase - TAG_SIZE)
      let tagPtr0 := min (c.acme - MIN_CHUNK_SIZE) preAllocPtr
      let isBelowFree := isChunkSize c.base tagPtr0
      let tagPtr := if isBelowFree then tagPtr0 else c.base
      let low := if isBelowFree then [Chunk.mk c.base tagPtr0 true] else []
      let reqAcme := requiredAcme allocBase layout.size tagPtr
      let mid := if isChunkSize reqAcme c.acme then
          low ++ [Chunk.mk tagPtr reqAcme false, Chunk.mk reqAcme c.acme true]
        else
          low ++ [Chunk.mk tagPtr c.acme false]
      some (⟨s.arena, s.abase, s.aacme, pre ++ mid ++ post⟩, allocBase)
    else none

/-- The upward-coalescing step shared by `free` (lib.rs lines 356-370) and
`shrink` (lib.rs lines 488-500): if a chunk exists above and is free,
deregister it and take its acme; an allocated chunk above only has its
`is_below_free` bit set (no chunk-level change); at the top of the
allocatable span, `is_top_free` becomes set (derived).  Returns the new
acme and the remaining chunks above. -/
def freeUp (cAcme : Nat) (post : List Chunk) : Nat × List Chunk :=
  match post with
  | above :: rest => if above.free then (above.acme, rest) else (cAcme, post)
  | [] => (cAcme, [])

/-- The downward-coalescing step of `free` (lib.rs lines 372-379): if the
tag says the chunk below is free (invariant I5: the last chunk of `pre`),
read its boundary size word, move the base down and deregister it.
Returns the new base and the remaining chunks below. -/
def freeDown (cBase : Nat) (pre : List Chunk) : Nat × List Chunk :=
  match pre.getLast? with
  | some below =>
    if below.free then (below.base, pre.dropLast) else (cBase, pre)
  | none => (cBase, pre)

/-- `Talc::free` (lib.rs lines 349-385) at chunk granularity for the chunk
with base `cb` (as recovered from the user pointer through the §3.2 tag
indirection, which never consults the layout).  Coalesces upward and
downward and registers the recombined chunk.  The `layout` argument is
unused, as in the source (`_: Layout`). -/
def freeChunk (s : HeapState) (cb : Nat) (_layout : Layout) :
    Option HeapState :=
  match focus s.chunks cb with
  | none => none
  | some (pre, c, post) =>
    if c.free then none
    else
      some ⟨s.arena, s.abase, s.aacme,
        (freeDown c.base pre).2 ++
          Chunk.mk (freeDown c.base pre).1 (freeUp c.acme post).1 true ::
            (freeUp c.acme post).2⟩

/-- The in-place branch of `Talc::grow` (lib.rs lines 420-444): deregister
the free chunk above, register the remainder when it is a chunk's worth,
and update the tag acme (clearing the neighbour's `is_below_free` or
`is_top_free` when the whole free chunk is absorbed, which the chunk list
derives). -/
def growInPlace (s : HeapState) (cb newReqAcme ptr : Nat) :
    Option (HeapState × Nat) :=
  match focus s.chunks cb with
  | none => none
  | some (pre, c, post) =>
    match post with
    | above :: rest =>
      let mid := if isChunkSize newReqAcme above.acme then
          [Chunk.mk c.base newReqAcme false,
           Chunk.mk newReqAcme above.acme true]
        else
          [Chunk.mk c.base above.acme false]
      some (⟨s.arena, s.abase, s.aacme, pre ++ mid ++ rest⟩, ptr)
    | [] => none

/-- The reallocation fallback of `Talc::grow` (lib.rs lines 447-455):
`malloc` the new layout (the copy acts on user bytes the model does not
track), then `free` the original chunk. -/
def growRealloc (s : HeapState) (cb _ptr : Nat) (layout : Layout)
    (newSize fallbackCb : Nat) : Option (HeapState × Nat) :=
  match mallocChunk s fallbackCb ⟨newSize, layout.align⟩ with
  | none => none
  | some (s1, newPtr) =>
    match freeChunk s1 cb layout with
    | none => none
    | some s2 => some (s2, newPtr)

/-- `Talc::grow` (lib.rs lines 391-456) at chunk granularity for the
allocated chunk with base `cb` and user pointer `ptr`.  Returns the
pointer unchanged if the chunk already reaches `new_req_acme`; otherwise
extends in place into a free chunk above when that suffices, re-registering
any tail of at least `MIN_CHUNK_SIZE`; otherwise reallocates through
`malloc` (into the free chunk the search would select, base `fallbackCb`)
followed by `free` of the original chunk. -/
def growChunk (s : HeapState) (cb ptr : Nat) (layout : Layout)
    (newSize fallbackCb : Nat) : Option (HeapState × Nat) :=
  match focus s.chunks cb with
  | none => none
  | some (_pre, c, post) =>
    if c.free then none
    else
      let newReqAcme := max (alignUp (ptr + newSize)) (c.base + MIN_CHUNK_SIZE)
      if newReqAcme ≤ c.acme then some (s, ptr)
      else
        match post with
        | above :: _rest =>
          if above.free && newReqAcme ≤ above.acme then
            growInPlace s cb newReqAcme ptr
          else
            growRealloc s cb ptr layout newSize fallbackCb
        | [] => growRealloc s cb ptr layout newSize fallbackCb

/-- `Talc::shrink` (lib.rs lines 467-508) at chunk granularity for the
allocated chunk with base `cb` and user pointer `ptr`.  NOTE: faithful to
the source, `new_req_acme` is computed from `ptr + layout.size()` — the
old layout size — not from `new_size` (lib.rs line 480); `newSize` is
otherwise unused, exactly as in the source where it only feeds
`debug_assert!`s.  When the remainder up to the chunk acme is at least
`MIN_CHUNK_SIZE`, the free chunk above (if any) is coalesced and the
extended tail is registered with the tag updated; otherwise nothing
happens. -/
def shrinkChunk (s : HeapState) (cb ptr : Nat) (layout : Layout)
    (_newSize : Nat) : Option HeapState :=
  match focus s.chunks cb with
  | none => none
  | some (pre, c, post) =>
    if c.free then none
    else
      let newReqAcme :=
        max (alignUp (ptr + layout.size)) (c.base + MIN_CHUNK_SIZE)
      if isChunkSize newReqAcme c.acme then
        some ⟨s.arena, s.abase, s.aacme,
          pre ++ Chunk.mk c.base newReqAcme false ::
            Chunk.mk newReqAcme (freeUp c.acme post).1 true ::
              (freeUp c.acme post).2⟩
      else some s

/-- The top step of `Talc::extend` (lib.rs lines 739-753): if the top
chunk is free, re-register it extended to the new acme; else register the
gained space as a fresh top chunk when it strictly exceeds
`MIN_CHUNK_SIZE`; else leave the acme at its old value.  Returns the new
allocatable acme and the new chunk list. -/
def extendTop (acme oldAcme : Nat) (isTopFree : Bool) (l : List Chunk) :
    Nat × List Chunk :=
  if isTopFree then
    match l.getLast? with
    | some top => (acme, l.dropLast ++ [Chunk.mk top.base acme true])
    | none => (acme, l)
  else if MIN_CHUNK_SIZE < acme - oldAcme then
    (acme, l ++ [Chunk.mk oldAcme acme true])
  else (oldAcme, l)

/-- The bottom step of `Talc::extend` (lib.rs lines 755-769): if the
bottom chunk is free, re-register it extended down to the new base; else
register the gained space as a fresh bottom chunk (setting the allocated
neighbour's `is_below_free`, derived) when it strictly exceeds
`MIN_CHUNK_SIZE`; else leave the base at its old value. -/
def extendBottom (base oldBase : Nat) (l : List Chunk) : Nat × List Chunk :=
  match l with
  | bottom :: rest =>
    if bottom.free then
      (base, Chunk.mk base bottom.acme true :: rest)
    else if MIN_CHUNK_SIZE < oldBase - base then
      (base, Chunk.mk base oldBase true :: bottom :: rest)
    else (oldBase, bottom :: rest)
  | [] => (oldBase, [])

/-- `Talc::extend` (lib.rs lines 712-772) at chunk granularity.  Panics
(`none`) unless `new_arena` contains the current arena and not null;
re-initializes when the current allocatable span is below
`MIN_CHUNK_SIZE`; otherwise recomputes the aligned bounds and applies the
top and bottom steps. -/
def extendChunk (s : HeapState) (newArena : Span) : Option HeapState :=
  if !(newArena.containsSpan s.arena) then none
  else if newArena.contains 0 then none
  else if !(isChunkSize s.abase s.aacme) then initChunk newArena
  else
    match (newArena.wordAlignInward).getBaseAcme with
    | some (base, acme) =>
      if MIN_CHUNK_SIZE ≤ acme - base then
        some ⟨newArena,
          (extendBottom base s.abase
            (extendTop acme s.aacme (freeTop s) s.chunks).2).1,
          (extendTop acme s.aacme (freeTop s) s.chunks).1,
          (extendBottom base s.abase
            (extendTop acme s.aacme (freeTop s) s.chunks).2).2⟩
      else none
    | none => none

/-- `Talc::get_allocated_span` (lib.rs lines 570-597) at chunk
granularity, used by `truncate`'s containment assertion: the allocatable
span shaved of the top free chunk (if `is_top_free`) and of the bottom
free chunk (if the bottom tag is not allocated). -/
def allocatedSpanChunk (s : HeapState) : Span :=
  if s.aacme - s.abase < MIN_CHUNK_SIZE then Span.empty
  else
    let acme := match s.chunks.getLast? with
      | some top => if top.free then top.base else s.aacme
      | none => s.aacme
    let base := match s.chunks with
      | bottom :: _ => if bottom.free then bottom.acme else s.abase
      | [] => s.abase
    Span.new base acme

/-- The top trim of `Talc::truncate` (lib.rs lines 836-858): when the new
acme is lower, deregister the top free chunk (asserted free) and either
re-register it smaller or drop it, absorbing the remainder. -/
def truncTop (newAcme oldAcme : Nat) (l : List Chunk) :
    Option (Nat × List Chunk) :=
  if newAcme < oldAcme then
    match l.getLast? with
    | some top =>
      if top.free then
        if isChunkSize top.base newAcme then
          some (newAcme, l.dropLast ++ [Chunk.mk top.base newAcme true])
        else some (top.base, l.dropLast)
      else none
    | none => none
  else some (oldAcme, l)

/-- The bottom trim of `Talc::truncate` (lib.rs lines 864-888): when the
new base is higher, deregister the bottom free chunk and either
re-register it smaller or drop it (clearing the neighbour's
`is_below_free`, derived). -/
def truncBottom (newBase oldBase : Nat) (l : List Chunk) :
    Option (Nat × List Chunk) :=
  if oldBase < newBase then
    match l with
    | bottom :: rest =>
      if bottom.free then
        if isChunkSize newBase bottom.acme then
          some (newBase, Chunk.mk newBase bottom.acme true :: rest)
        else some (bottom.acme, rest)
      else none
    | [] => none
  else some (oldBase, l)

/-- `Talc::truncate` (lib.rs lines 798-891) at chunk granularity.  Panics
(`none`) unless the old arena contains `new_arena` and the aligned new
span contains the allocated span; re-initializes on an uninitialized
allocator or when the new span is below `MIN_CHUNK_SIZE`; otherwise trims
both ends. -/
def truncateChunk (s : HeapState) (newArena : Span) : Option HeapState :=
  let newAllocSpan := newArena.wordAlignInward
  if !(s.arena.containsSpan newArena) then none
  else if !(newAllocSpan.containsSpan (allocatedSpanChunk s)) then none
  else if s.abase = 0 || s.aacme = 0 then initChunk newArena
  else
    match newAllocSpan.getBaseAcme with
    | some (base, acme) =>
      if isChunkSize base acme then
        match truncTop acme s.aacme s.chunks with
        | none => none
        | some (acme1, chunks1) =>
          match truncBottom base s.abase chunks1 with
          | none => none
          | some (base1, chunks2) => some ⟨newArena, base1, acme1, chunks2⟩
      else initChunk newArena
    | none => initChunk newArena

/-- `usize::trailing_zeros` for a nonzero word, as used by `next_bin`
(count of low zero bits; we never invoke it at zero). -/
def tz (n : Nat) : Nat :=
  if h : n = 0 then 0
  else if n % 2 = 1 then 0
  else tz (n / 2) + 1
decreasing_by exact Nat.div_lt_self (Nat.pos_of_ne_zero h) (by omega)

/-- `Talc::next_bin` (lib.rs lines 318-344): from the two availability
words, the smallest available bin of index at least `bin`, found with a
shift and a count-trailing-zeros; `none` when no such bin is available. -/
def nextBin (availLow availHigh : Nat) (bin : Nat) : Option Nat :=
  if bin < 64 then
    if availLow >>> bin ≠ 0 then some (bin + tz (availLow >>> bin))
    else if availHigh ≠ 0 then some (tz availHigh + 64)
    else none
  else if bin < BIN_COUNT then
    if availHigh >>> (bin - 64) ≠ 0 then
      some (bin + tz (availHigh >>> (bin - 64)))
    else none
  else none

/-- The availability bit of bin `b`: bit `b` of the low word for
`b < 64`, bit `b - 64` of the high word for `64 ≤ b < BIN_COUNT` (§3.3). -/
def availBit (availLow availHigh : Nat) (b : Nat) : Bool :=
  if b < 64 then availLow.testBit b
  else if b < BIN_COUNT then availHigh.testBit (b - 64)
  else false

/-- Modelled from the spec: `bin_of_size` from the missing `utils.rs`
(§3.3) — the first `WORD_BITS` bins cover one `ALIGN`-sized step each
starting at `MIN_CHUNK`, the remaining bins one doubling each. -/
def binOfSize (n : Nat) : Nat :=
  if n < MIN_CHUNK_SIZE + 64 * ALIGN then (n - MIN_CHUNK_SIZE) / ALIGN
  else 64 + (Nat.log2 n - Nat.log2 (MIN_CHUNK_SIZE + 64 * ALIGN))

/-- A free-chunk record as stored in a bin's intrusive list: the chunk
base and the low boundary size word (§3.1). -/
structure FreeRec where
  base : Nat
  size : Nat
  deriving DecidableEq, Repr

/-- The bin-and-bitmap slice of the `Talc` struct: the two availability
words and the bin lists (`bins` is the in-arena array of list heads; the
record list models the intrusive list a head points to). -/
structure BinsTalc where
  availLow : Nat
  availHigh : Nat
  bins : List (List FreeRec)
  deriving DecidableEq, Repr

/-- One bin scan of `Talc::get_sufficient_chunk` (lib.rs lines 271-286 and
295-311): the first node whose chunk satisfies the path's acceptance test,
yielding `(chunk_base, chunk_acme, alloc_base)`. -/
def scanBin (l : List FreeRec) (layout : Layout) : Option (Nat × Nat × Nat) :=
  let required := requiredChunkSize layout.size
  if layout.align ≤ ALIGN then
    match l.find? (fun f => required ≤ f.size) with
    | some f => some (f.base, f.base + f.size, f.base + TAG_SIZE)
    | none => none
  else
    match l.find? (fun f => required ≤ f.size &&
        alignUpBy (f.base + TAG_SIZE) layout.align + layout.size ≤
          f.base + f.size) with
    | some f =>
      some (f.base, f.base + f.size, alignUpBy (f.base + TAG_SIZE) layout.align)
    | none => none

/-- The bin loop of `Talc::get_sufficient_chunk`: scan the current bin,
else step to `next_bin(bin + 1)`.  `fuel` bounds the iteration count
(`next_bin` increases the bin index each step, so `BIN_COUNT + 1` steps
always suffice); the search only reports the selected chunk — the
`deregister` state change is carried by the chunk-level `mallocChunk`. -/
def searchFrom (t : BinsTalc) (layout : Layout) :
    Nat → Nat → Option (Nat × Nat × Nat)
  | 0, _ => none
  | fuel + 1, bin =>
    match scanBin (t.bins.getD bin []) layout with
    | some r => some r
    | none =>
      match nextBin t.availLow t.availHigh (bin + 1) with
      | some b => searchFrom t layout fuel b
      | none => none

/-- `Talc::get_sufficient_chunk` (lib.rs lines 260-316) at the bin level:
start at `next_bin(bin_of_size(required_chunk_size))` and loop. -/
def getSufficientChunkBins (t : BinsTalc) (layout : Layout) :
    Option (Nat × Nat × Nat) :=
  let required := requiredChunkSize layout.size
  match nextBin t.availLow t.availHigh (binOfSize required) with
  | none => none
  | some b => searchFrom t layout (BIN_COUNT + 1) b

/-- The bins slice of `Talc::new` (lib.rs lines 510-523): both
availability words zero and an empty (`len == 0`) bin slice. -/
def binsNew : BinsTalc := ⟨0, 0, []⟩

/-- The default OOM handler `alloc_error` (lib.rs lines 67-69): fail
unconditionally. -/
def allocErrorHandler (_t : BinsTalc) (_layout : Layout) :
    Except AllocError Unit :=
  Except.error AllocError.mk

/-- The retry loop of `Talc::malloc` (lib.rs lines 216-221) at the bin
level with the default OOM handler, which leaves the state unchanged: one
failed search invokes the handler, whose error the `?` operator
propagates. -/
def mallocBinsDefault (t : BinsTalc) (layout : Layout) :
    Except AllocError (Nat × Nat × Nat) :=
  match getSufficientChunkBins t layout with
  | some r => Except.ok r
  | none =>
    match allocErrorHandler t layout with
    | Except.error e => Except.error e
    | Except.ok _ => Except.error AllocError.mk

/-- The chunk-level image of the bin search: the first free chunk that
passes `get_sufficient_chunk`'s acceptance test, `none` exactly when no
sufficient free chunk exists. -/
def chunkSearch (s : HeapState) (layout : Layout) : Option Nat :=
  match s.chunks.find? (fun c => c.free && chunkFits c layout) with
  | some c => some c.base
  | none => none

/-- The retry loop of `Talc::malloc` (lib.rs lines 216-221) at chunk
granularity, for an arbitrary OOM handler: search, on failure run the
handler (propagating its error), and retry.  The source loop is unbounded;
`fuel` caps the modelled iterations (`none` when it runs out).  The second
component counts the handler invocations performed. -/
def mallocLoop (handler : HeapState → Except AllocError HeapState)
    (layout : Layout) :
    Nat → HeapState → Option (Except AllocError (HeapState × Nat) × Nat)
  | 0, _ => none
  | fuel + 1, s =>
    match chunkSearch s layout with
    | some cb =>
      match mallocChunk s cb layout with
      | some r => some (Except.ok r, 0)
      | none => none
    | none =>
      match handler s with
      | Except.error e => some (Except.error e, 1)
      | Except.ok s1 =>
        match mallocLoop handler layout fuel s1 with
        | some (r, n) => some (r, n + 1)
        | none => none

/-- The fields and arena reads of `Talc::get_allocated_span` (lib.rs lines
570-597): the allocatable bounds, the stored `is_top_free` flag, and the
arena memory as a word-indexed map (`mem a` is the word at byte address
`a`). -/
structure RawTalc where
  abase : Nat
  aacme : Nat
  isTopFree : Bool
  mem : Nat → Nat

/-- `Talc::get_allocated_span` (lib.rs lines 570-597), reads and all: the
empty span when the allocatable span is below `MIN_CHUNK_SIZE`; otherwise
shave the top free chunk using the boundary size word below the acme when
`is_top_free`, and the bottom free chunk using its low size word (two
words up from the base) when the word at the base is not an allocated tag
(low bit clear). -/
def getAllocatedSpanRaw (t : RawTalc) : Span :=
  if t.aacme - t.abase < MIN_CHUNK_SIZE then Span.empty
  else
    let allocatedAcme := if t.isTopFree then
        t.aacme - t.mem (t.aacme - WORD_SIZE)
      else t.aacme
    let allocatedBase := if !((t.mem t.abase).testBit 0) then
        t.abase + t.mem (t.abase + NODE_SIZE)
      else t.abase
    Span.new allocatedBase allocatedAcme

/-- The public operations of §6 as one step type, with the
nondeterministic inputs (selected chunk bases, user pointers) as
parameters. -/
inductive Op where
  | opInit (arena : Span)
  | opMalloc (cb : Nat) (layout : Layout)
  | opFree (cb : Nat) (layout : Layout)
  | opGrow (cb ptr : Nat) (layout : Layout) (newSize fallbackCb : Nat)
  | opShrink (cb ptr : Nat) (layout : Layout) (newSize : Nat)
  | opExtend (arena : Span)
  | opTruncate (arena : Span)
  deriving DecidableEq, Repr

/-- Run one public operation; `none` models a panic or an execution the
heap state cannot support. -/
def applyOp : Op → HeapState → Option HeapState
  | Op.opInit arena, _ => initChunk arena
  | Op.opMalloc cb layout, s => (mallocChunk s cb layout).map Prod.fst
  | Op.opFree cb layout, s => freeChunk s cb layout
  | Op.opGrow cb ptr layout newSize fb, s =>
    (growChunk s cb ptr layout newSize fb).map Prod.fst
  | Op.opShrink cb ptr layout newSize, s => shrinkChunk s cb ptr layout newSize
  | Op.opExtend arena, s => extendChunk s arena
  | Op.opTruncate arena, s => truncateChunk s arena

/-- A heap holding a single allocated chunk `[96, 168)` whose user pointer
is 104 under an old layout of 56 bytes — the situation `malloc` leaves
behind for `Layout { size: 56, align: 8 }` (`req_acme = align_up(104 + 56)
= 160`, acme extended to 168 with the 8-byte remainder absorbed). -/
def shrinkBugState : HeapState := ⟨⟨96, 168⟩, 96, 168, [⟨96, 168, false⟩]⟩

/-- A heap holding only the metadata chunk: the result of `init` on the
arena `[8, 1040 + 8)` (aligned interior `[8, 1040)`, metadata chunk
`[8, 1040)`, no space above). -/
def metadataOnlyState : HeapState := ⟨⟨8, 1040⟩, 8, 1040, [⟨8, 1040, false⟩]⟩

/-- An OOM handler that obtains 32 more bytes of arena per invocation and
publishes them through `extend` — the sanctioned behaviour of §5/§6 for
user handlers. -/
def growingHandler (s : HeapState) : Except AllocError HeapState :=
  match extendChunk s ⟨s.arena.base, s.arena.acme + 32⟩ with
  | some s1 => Except.ok s1
  | none => Except.error AllocError.mk

/-- The default OOM handler at chunk granularity: fail unconditionally,
like `alloc_error` (lib.rs lines 67-69). -/
def failingHandler (_s : HeapState) : Except AllocError HeapState :=
  Except.error AllocError.mk

/-- A well-formed three-chunk heap: the metadata chunk, one user
allocation, and the top free chunk. -/
def witnessState : HeapState :=
  ⟨⟨8, 10000⟩, 8, 10000,
    [⟨8, 1040, false⟩, ⟨1040, 1104, false⟩, ⟨1104, 10000, true⟩]⟩

end TalcModel

namespace TalcModel

theorem tz_testBit : ∀ n : Nat, n ≠ 0 → n.testBit (tz n) = true := by
  intro n
  induction n using Nat.strong_induction_on with
  | _ n ih =>
    intro hn
    rw [tz]
    simp only [hn, dite_false]
    by_cases hodd : n % 2 = 1
    · simp [hodd]
    · have heven : n % 2 = 0 := by omega
      simp only [hodd, if_false]
      rw [Nat.testBit_succ]
      exact ih (n / 2) (Nat.div_lt_self (Nat.pos_of_ne_zero hn) (by omega))
        (by omega)

theorem tz_min : ∀ n j : Nat, j < tz n → n.testBit j = false := by
  intro n
  induction n using Nat.strong_induction_on with
  | _ n ih =>
    intro j hj
    rw [tz] at hj
    by_cases hn : n = 0
    · simp [hn] at hj
    · simp only [hn, dite_false] at hj
      by_cases hodd : n % 2 = 1
      · simp [hodd] at hj
      · simp only [hodd, if_false] at hj
        match j with
        | 0 => simp [Nat.testBit_zero]; omega
        | j' + 1 =>
          rw [Nat.testBit_succ]
          exact ih (n / 2) (Nat.div_lt_self (Nat.pos_of_ne_zero hn) (by omega))
            j' (by omega)

theorem tz_lt (n k : Nat) (hn : n ≠ 0) (h : n < 2 ^ k) : tz n < k := by
  by_contra hle
  have : n.testBit (tz n) = false :=
    Nat.testBit_eq_false_of_lt
      (lt_of_lt_of_le h (Nat.pow_le_pow_right (by omega) (by omega)))
  rw [tz_testBit n hn] at this
  simp at this

theorem shiftRight_zero_testBit (x b j : Nat) (h : x >>> b = 0) (hj : b ≤ j) :
    x.testBit j = false := by
  have hsh : x.testBit (b + (j - b)) = (x >>> b).testBit (j - b) :=
    (Nat.testBit_shiftRight x).symm
  rw [h, Nat.zero_testBit] at hsh
  rw [show j = b + (j - b) by omega]
  exact hsh

theorem shifted_lt (x b w : Nat) (h : x < 2 ^ w) (hb : b ≤ w) :
    x >>> b < 2 ^ (w - b) := by
  rw [Nat.shiftRight_eq_div_pow]
  apply Nat.div_lt_of_lt_mul
  calc x < 2 ^ w := h
  _ = 2 ^ b * 2 ^ (w - b) := by rw [← pow_add]; congr 1; omega

/-- C7: for every bin index `b` — including `b ≥ BIN_COUNT` — and every
bitmap state, `next_bin(b)` returns the smallest bin index `i ≥ b` whose
availability bit is set, and returns none exactly when no bin of index
`≥ b` has its bit set. -/
theorem nextBin_spec (availLow availHigh b : Nat)
    (hlo : availLow < 2 ^ 64) (hhi : availHigh < 2 ^ 64) :
    (∀ i, nextBin availLow availHigh b = some i →
      b ≤ i ∧ availBit availLow availHigh i = true ∧
      ∀ j, b ≤ j → j < i → availBit availLow availHigh j = false) ∧
    (nextBin availLow availHigh b = none →
      ∀ j, b ≤ j → availBit availLow availHigh j = false) := by
  unfold nextBin
  by_cases hb : b < 64
  · rw [if_pos hb]
    by_cases hsh : availLow >>> b ≠ 0
    · rw [if_pos hsh]
      constructor
      · intro i hi
        injection hi with hi
        subst hi
        have htzlt : tz (availLow >>> b) < 64 - b :=
          tz_lt _ _ hsh (shifted_lt _ _ _ hlo (by omega))
        refine ⟨by omega, ?_, ?_⟩
        · unfold availBit
          rw [if_pos (show b + tz (availLow >>> b) < 64 by omega)]
          rw [← Nat.testBit_shiftRight]
          exact tz_testBit _ hsh
        · intro j hbj hji
          unfold availBit
          rw [if_pos (show j < 64 by omega)]
          rw [show j = b + (j - b) by omega, ← Nat.testBit_shiftRight]
          exact tz_min _ _ (by omega)
      · intro h; exact absurd h (by simp)
    · push_neg at hsh
      rw [if_neg (by simp [hsh])]
      by_cases hhi0 : availHigh ≠ 0
      · rw [if_pos hhi0]
        constructor
        · intro i hi
          injection hi with hi
          subst hi
          have htzlt : tz availHigh < 64 := tz_lt _ _ hhi0 hhi
          refine ⟨by omega, ?_, ?_⟩
          · unfold availBit
            rw [if_neg (show ¬(tz availHigh + 64 < 64) by omega),
              if_pos (show tz availHigh + 64 < BIN_COUNT by
                unfold BIN_COUNT; omega)]
            simp only [Nat.add_sub_cancel]
            exact tz_testBit _ hhi0
          · intro j hbj hji
            unfold availBit
            by_cases hj64 : j < 64
            · rw [if_pos hj64]
              exact shiftRight_zero_testBit _ _ _ hsh (by omega)
            · rw [if_neg hj64, if_pos (show j < BIN_COUNT by
                unfold BIN_COUNT; omega)]
              exact tz_min _ _ (by omega)
        · intro h; exact absurd h (by simp)
      · push_neg at hhi0
        rw [if_neg (by simp [hhi0])]
        constructor
        · intro i hi; exact absurd hi (by simp)
        · intro _ j hbj
          unfold availBit
          by_cases hj64 : j < 64
          · rw [if_pos hj64]
            exact shiftRight_zero_testBit _ _ _ hsh (by omega)
          · rw [if_neg hj64]
            by_cases hj128 : j < BIN_COUNT
            · simp [hj128, hhi0]
            · simp [hj128]
  · rw [if_neg hb]
    by_cases hb2 : b < BIN_COUNT
    · rw [if_pos hb2]
      by_cases hsh : availHigh >>> (b - 64) ≠ 0
      · rw [if_pos hsh]
        constructor
        · intro i hi
          injection hi with hi
          subst hi
          have hble : b - 64 ≤ 64 := by unfold BIN_COUNT at hb2; omega
          have htzlt : tz (availHigh >>> (b - 64)) < 64 - (b - 64) :=
            tz_lt _ _ hsh (shifted_lt _ _ _ hhi hble)
          refine ⟨by omega, ?_, ?_⟩
          · unfold availBit
            rw [if_neg (show ¬(b + tz (availHigh >>> (b - 64)) < 64) by omega),
              if_pos (show b + tz (availHigh >>> (b - 64)) < BIN_COUNT by
                unfold BIN_COUNT at *; omega)]
            rw [show b + tz (availHigh >>> (b - 64)) - 64 =
              (b - 64) + tz (availHigh >>> (b - 64)) by omega,
              ← Nat.testBit_shiftRight]
            exact tz_testBit _ hsh
          · intro j hbj hji
            unfold availBit
            rw [if_neg (show ¬(j < 64) by omega),
              if_pos (show j < BIN_COUNT by unfold BIN_COUNT at *; omega)]
            rw [show j - 64 = (b - 64) + (j - b) by omega,
              ← Nat.testBit_shiftRight]
            exact tz_min _ _ (by omega)
        · intro h; exact absurd h (by simp)
      · push_neg at hsh
        rw [if_neg (by simp [hsh])]
        constructor
        · intro i hi; exact absurd hi (by simp)
        · intro _ j hbj
          unfold availBit
          rw [if_neg (show ¬(j < 64) by omega)]
          by_cases hj128 : j < BIN_COUNT
          · rw [if_pos hj128]
            exact shiftRight_zero_testBit _ _ _ hsh (by omega)
          · simp [hj128]
    · rw [if_neg hb2]
      constructor
      · intro i hi; exact absurd hi (by simp)
      · intro _ j hbj
        unfold availBit
        rw [if_neg (show ¬(j < 64) by
            unfold BIN_COUNT at *; omega),
          if_neg (show ¬(j < BIN_COUNT) by unfold BIN_COUNT at *; omega)]

end TalcModel
namespace TalcModel

/-- C1: the spec requires `shrink` to compute
`new_req_acme = max(align_up(ptr + new_size), chunk_base + MIN_CHUNK)`,
but the source computes it from `ptr + layout.size()` — the old size —
so `new_size` never influences the heap (lib.rs line 480, against both
the spec and `grow`'s identical computation at line 408).  At the failing
input, shrinking the 56-byte allocation at ptr 104 (chunk `[96, 168)`)
to 8 bytes leaves the chunk untouched, although the tail `[120, 168)`
above the claimed `new_req_acme = 120` holds 48 ≥ `MIN_CHUNK` bytes and
the claim requires it to be freed. -/
theorem shrink_uses_old_layout_size :
    shrinkChunk shrinkBugState 96 104 ⟨56, 8⟩ 8 = some shrinkBugState ∧
    max (alignUp (104 + 8)) (96 + MIN_CHUNK_SIZE) = 120 ∧
    isChunkSize 120 168 = true := by
  refine ⟨?_, by decide, by decide⟩
  decide

/-- C8: `free` never consults its layout argument — the parameter is `_`
in the source and chunk metadata is recovered from the tag indirection
alone — so any two layouts produce the same heap transition. -/
theorem free_ignores_layout (s : HeapState) (cb : Nat) (l1 l2 : Layout) :
    freeChunk s cb l1 = freeChunk s cb l2 := rfl

/-- C10: whenever the allocatable sub-span holds fewer than
`MIN_CHUNK_SIZE` bytes — in particular on an uninitialized allocator with
both bounds null — `get_allocated_span` returns the empty span without
reading the arena: the result is the same for every memory contents. -/
theorem allocated_span_small_is_empty (abase aacme : Nat)
    (_hok : abase ≤ aacme) (h2 : aacme - abase < MIN_CHUNK_SIZE) :
    ∀ (isTopFree : Bool) (mem : Nat → Nat),
      getAllocatedSpanRaw ⟨abase, aacme, isTopFree, mem⟩ = Span.empty := by
  intro tf mem
  unfold getAllocatedSpanRaw
  rw [if_pos h2]

/-- Witness for C10 at the uninitialized allocator (`new()` leaves both
bounds null and `is_top_free = true`), with arbitrary garbage memory. -/
theorem allocated_span_small_is_empty_witness :
    getAllocatedSpanRaw ⟨0, 0, true, fun a => a + 37⟩ = Span.empty :=
  allocated_span_small_is_empty 0 0 (Nat.le_refl 0) (by decide) true _

/-- C9: `malloc` on a freshly constructed, never-initialized allocator:
both availability words are zero, so `next_bin` finds no bin,
`get_sufficient_chunk` returns `None` without touching any bin list, and
with the default `alloc_error` handler the call returns `AllocError`. -/
theorem malloc_uninitialized_errors (layout : Layout) :
    mallocBinsDefault binsNew layout = Except.error AllocError.mk ∧
    getSufficientChunkBins binsNew layout = none := by
  have hnb : ∀ b, nextBin 0 0 b = none := by
    intro b
    unfold nextBin
    simp [Nat.zero_shiftRight]
  have hgs : getSufficientChunkBins binsNew layout = none := by
    simp [getSufficientChunkBins, binsNew, hnb]
  refine ⟨?_, hgs⟩
  unfold mallocBinsDefault
  rw [hgs]
  rfl

/-- Counterexample to C4: the claim says a gained sliver of exactly
`MIN_CHUNK` at the top is registered, but the source registers only a gain
strictly greater than `MIN_CHUNK_SIZE` (lib.rs line 747, `>`): extending
the metadata-only heap (top not free, acme 1040) to acme 1064 — a gain of
exactly `MIN_CHUNK_SIZE = 24` — leaves the allocatable acme at 1040 and
registers nothing. -/
theorem extend_absorbs_min_chunk_gain :
    extendChunk metadataOnlyState ⟨8, 1064⟩ =
      some ⟨⟨8, 1064⟩, 8, 1040, [⟨8, 1040, false⟩]⟩ ∧
    1064 - metadataOnlyState.aacme = MIN_CHUNK_SIZE := by
  constructor
  · decide
  · decide

/-- Counterexample to C5: the claim says an arena whose word-aligned
interior exactly fits the header tag plus the `BIN_COUNT`-entry bin array
is initialized non-empty, but the source requires strictly more than the
bin array above the metadata pointer (lib.rs line 641, `>`): the arena
`[8, 1040)` has aligned interior of exactly
`TAG_SIZE + 8 * BIN_COUNT = 1032` bytes and is marked empty. -/
theorem init_exact_fit_marked_empty :
    initChunk ⟨8, 1040⟩ = some ⟨⟨8, 1040⟩, 0, 0, []⟩ ∧
    alignDown 1040 - alignUp 8 = TAG_SIZE + 8 * BIN_COUNT := by
  constructor
  · decide
  · decide

/-- Counterexample to C6: the claim says the OOM handler is invoked at
most once per `malloc` call, but the source retries the search after every
successful handler invocation (lib.rs lines 216-221): with a legal handler
that `extend`s the arena by 32 bytes per call, a 40-byte request on the
metadata-only heap invokes the handler twice (32 then 64 bytes of top free
chunk) before succeeding at pointer 1048. -/
theorem malloc_invokes_handler_twice :
    mallocLoop growingHandler ⟨40, 8⟩ 5 metadataOnlyState =
      some (Except.ok
        (⟨⟨8, 1104⟩, 8, 1104,
          [⟨8, 1040, false⟩, ⟨1040, 1104, false⟩]⟩, 1048), 2) := by
  rfl

end TalcModel
namespace TalcModel

theorem le_alignUp (p : Nat) : p ≤ alignUp p := by
  unfold alignUp
  have h1 := Nat.div_add_mod (p + 7) 8
  have h2 : (p + 7) % 8 < 8 := Nat.mod_lt _ (by norm_num)
  omega

theorem alignUp_dvd (p : Nat) : 8 ∣ alignUp p := ⟨(p + 7) / 8, Nat.mul_comm _ _⟩

theorem le_alignUpBy (x a : Nat) (ha : 0 < a) : x ≤ alignUpBy x a := by
  unfold alignUpBy
  rw [Nat.mul_comm]
  have h1 := Nat.div_add_mod (x + (a - 1)) a
  have h2 : (x + (a - 1)) % a < a := Nat.mod_lt _ ha
  omega

theorem alignUpBy_mod (x a : Nat) : alignUpBy x a % a = 0 := by
  unfold alignUpBy
  exact Nat.mul_mod_left _ _

theorem alignUpBy_eight (x : Nat) (h : 8 ∣ x) : alignUpBy x 8 = x := by
  obtain ⟨k, rfl⟩ := h
  unfold alignUpBy
  norm_num
  rw [Nat.mul_add_div (by norm_num)]
  norm_num
  ring

theorem focus_eq : ∀ (l : List Chunk) (cb : Nat) (pre : List Chunk)
    (c : Chunk) (post : List Chunk), focus l cb = some (pre, c, post) →
    l = pre ++ c :: post ∧ c.base = cb := by
  intro l
  induction l with
  | nil => intro cb pre c post h; simp [focus] at h
  | cons a rest ih =>
    intro cb pre c post h
    unfold focus at h
    by_cases hab : a.base = cb
    · rw [if_pos hab] at h
      injection h with h
      injection h with h1 h
      injection h with h2 h3
      subst h1; subst h2; subst h3
      exact ⟨rfl, hab⟩
    · rw [if_neg hab] at h
      match hrec : focus rest cb with
      | some (p, x, q) =>
        rw [hrec] at h
        injection h with h
        injection h with h1 h
        injection h with h2 h3
        subst h1; subst h2; subst h3
        obtain ⟨hl, hb⟩ := ih cb p x q hrec
        exact ⟨by rw [hl]; simp, hb⟩
      | none => rw [hrec] at h; exact absurd h (by simp)

end TalcModel
namespace TalcModel

theorem requiredChunkSize_ge (size : Nat) :
    size + TAG_SIZE ≤ requiredChunkSize size := by
  unfold requiredChunkSize TAG_SIZE MIN_CHUNK_SIZE
  by_cases h : size ≤ 24 - 8
  · rw [if_pos h]; omega
  · rw [if_neg h]
    exact le_alignUp _

/-- C3: every pointer `malloc` returns successfully is aligned to
`max(layout.align, ALIGN)` and carries `layout.size` bytes inside the
allocatable sub-span — the pointer lies in
`[allocatable_base + TAG, allocatable_acme - layout.size]` — provided the
selected chunk lies in the allocatable sub-span on a word-aligned base, as
`register` guarantees for every binned chunk. -/
theorem malloc_pointer_aligned_in_span (s : HeapState) (cb : Nat)
    (layout : Layout) (s' : HeapState) (p : Nat)
    (hwf : ∀ c ∈ s.chunks,
      s.abase ≤ c.base ∧ c.acme ≤ s.aacme ∧ c.base % 8 = 0)
    (h : mallocChunk s cb layout = some (s', p)) :
    p % max layout.align ALIGN = 0 ∧
    s.abase + TAG_SIZE ≤ p ∧ p + layout.size ≤ s.aacme := by
  unfold mallocChunk at h
  match hf : focus s.chunks cb with
  | none => rw [hf] at h; exact absurd h (by simp)
  | some (pre, c, post) =>
    rw [hf] at h
    dsimp only at h
    obtain ⟨hl, _hcb⟩ := focus_eq _ _ _ _ _ hf
    have hmem : c ∈ s.chunks := by rw [hl]; simp
    obtain ⟨hb1, hb2, hb3⟩ := hwf c hmem
    by_cases hguard : c.free && chunkFits c layout
    · rw [if_pos hguard] at h
      simp only [Option.some.injEq, Prod.mk.injEq] at h
      obtain ⟨_hs, hp⟩ := h
      have hfits : chunkFits c layout = true := by
        simp only [Bool.and_eq_true] at hguard
        exact hguard.2
      rw [← hp]
      unfold chunkFits at hfits
      unfold allocBaseOf
      by_cases hal : layout.align ≤ ALIGN
      · rw [if_pos hal] at hfits ⊢
        have hreq : requiredChunkSize layout.size ≤ c.acme - c.base := by
          simpa [requiredChunkSize] using hfits
        have hchain : layout.size + TAG_SIZE ≤ c.acme - c.base := by
          refine le_trans (requiredChunkSize_ge layout.size) ?_
          simpa [requiredChunkSize] using hreq
        have hmax : max layout.align ALIGN = ALIGN := Nat.max_eq_right hal
        have h1 : (c.base + TAG_SIZE) % ALIGN = 0 := by
          unfold ALIGN TAG_SIZE
          omega
        have h2 : s.abase + TAG_SIZE ≤ c.base + TAG_SIZE :=
          Nat.add_le_add_right hb1 _
        have h3 : c.base + TAG_SIZE + layout.size ≤ s.aacme := by
          unfold TAG_SIZE at hchain ⊢
          omega
        rw [hmax]
        exact ⟨h1, h2, h3⟩
      · rw [if_neg hal] at hfits ⊢
        simp only [Bool.and_eq_true, decide_eq_true_eq] at hfits
        obtain ⟨_hreq, hfit⟩ := hfits
        have halpos : 0 < layout.align := by unfold ALIGN at hal; omega
        have hmax : max layout.align ALIGN = layout.align :=
          Nat.max_eq_left (by unfold ALIGN at *; omega)
        have h2 : s.abase + TAG_SIZE ≤ alignUpBy (c.base + TAG_SIZE) layout.align :=
          le_trans (Nat.add_le_add_right hb1 _)
            (le_alignUpBy (c.base + TAG_SIZE) layout.align halpos)
        have h3 : alignUpBy (c.base + TAG_SIZE) layout.align + layout.size ≤
            s.aacme := le_trans hfit hb2
        rw [hmax]
        exact ⟨alignUpBy_mod _ _, h2, h3⟩
    · rw [if_neg hguard] at h; exact absurd h (by simp)

/-- Witness for C3: the over-aligned allocation
`Layout { size: 100, align: 64 }` in the top free chunk of a well-formed
heap returns pointer 1152. -/
theorem malloc_pointer_aligned_in_span_witness :
    1152 % max 64 ALIGN = 0 ∧ 8 + TAG_SIZE ≤ 1152 ∧ 1152 + 100 ≤ 10000 :=
  malloc_pointer_aligned_in_span witnessState 1104 ⟨100, 64⟩
    ⟨⟨8, 10000⟩, 8, 10000,
      [⟨8, 1040, false⟩, ⟨1040, 1104, false⟩, ⟨1104, 1144, true⟩,
       ⟨1144, 1256, false⟩, ⟨1256, 10000, true⟩]⟩ 1152
    (by decide) (by decide)

/-- C6 (amended): the OOM handler is invoked only when no sufficient free
chunk exists — a successful search allocates with zero handler
invocations — and a failing handler makes `malloc` return `AllocError`
immediately after that single invocation.  The handler may however be
invoked once per failed search, arbitrarily many times in one `malloc`
call, because the source retries the search after every successful
handler invocation. -/
theorem malloc_oom_policy (handler : HeapState → Except AllocError HeapState)
    (layout : Layout) (s : HeapState) (fuel : Nat) :
    (chunkSearch s layout ≠ none →
      ∀ r n, mallocLoop handler layout (fuel + 1) s = some (r, n) → n = 0) ∧
    (chunkSearch s layout = none →
      ∀ e, handler s = Except.error e →
        mallocLoop handler layout (fuel + 1) s = some (Except.error e, 1)) := by
  constructor
  · intro hs r n h
    unfold mallocLoop at h
    match hcs : chunkSearch s layout with
    | none => exact absurd hcs hs
    | some cb =>
      rw [hcs] at h
      dsimp only at h
      match hm : mallocChunk s cb layout with
      | some rr =>
        rw [hm] at h
        simp only [Option.some.injEq, Prod.mk.injEq] at h
        exact h.2.symm
      | none => rw [hm] at h; exact absurd h (by simp)
  · intro hs e he
    unfold mallocLoop
    rw [hs, he]

/-- Witness for C6 (amended): on the metadata-only heap the failing
default handler is invoked once and its error is returned. -/
theorem malloc_oom_policy_witness :
    mallocLoop failingHandler ⟨40, 8⟩ 1 metadataOnlyState =
      some (Except.error AllocError.mk, 1) :=
  (malloc_oom_policy failingHandler ⟨40, 8⟩ metadataOnlyState 0).2
    (by decide) AllocError.mk rfl

/-- Witness for C7: on availability words `(5, 0)` the search from bin 1
returns bin 2, whose availability bit is set. -/
theorem nextBin_spec_witness : 1 ≤ 2 ∧ availBit 5 0 2 = true :=
  ⟨by decide,
    (((nextBin_spec 5 0 1 (by decide) (by decide)).1) 2
      (by simp [nextBin, tz])).2.1⟩

end TalcModel
namespace TalcModel

/-- C5 (amended): `init(arena)` marks the allocator empty iff the
word-aligned-inward arena holds at most `TAG_SIZE + 8 * BIN_COUNT` bytes
— so an arena whose aligned interior exactly fits the tag and the bin
array is marked empty — and the smallest non-empty initialization (one
word more) carves only the metadata chunk, with no top free chunk
(`is_top_free = false`). -/
theorem init_empty_iff (b a : Nat)
    (hnull : Span.contains ⟨b, a⟩ 0 = false)
    (hov : 8 - 1 + TAG_SIZE ≤ 2 ^ 64 - 1 - alignUp b) :
    (initChunk ⟨b, a⟩ = some ⟨⟨b, a⟩, 0, 0, []⟩ ↔
      alignDown a - alignUp b ≤ TAG_SIZE + 8 * BIN_COUNT) ∧
    (alignDown a - alignUp b = TAG_SIZE + 8 * BIN_COUNT + ALIGN →
      initChunk ⟨b, a⟩ = some ⟨⟨b, a⟩, alignUp b, alignDown a,
        [⟨alignUp b, alignUp b + (TAG_SIZE + 8 * BIN_COUNT), false⟩]⟩) := by
  have hmeta : alignUpBy (alignUp b + TAG_SIZE) 8 = alignUp b + TAG_SIZE := by
    refine alignUpBy_eight _ ?_
    exact Dvd.dvd.add (alignUp_dvd b) ⟨1, rfl⟩
  unfold initChunk
  simp only [hnull, Bool.false_eq_true, if_false]
  simp only [Span.wordAlignInward, Span.getBaseAcme]
  by_cases hba : alignUp b < alignDown a
  · rw [if_pos hba]
    dsimp only
    rw [if_pos hov, hmeta]
    by_cases hcap : 8 * BIN_COUNT < alignDown a - (alignUp b + TAG_SIZE)
    · rw [if_pos hcap]
      constructor
      · constructor
        · intro h
          simp only [Option.some.injEq, HeapState.mk.injEq] at h
          exact absurd h.2.2.2 (by simp)
        · intro h
          unfold TAG_SIZE BIN_COUNT at hcap h
          omega
      · intro hint
        have hda : alignDown a = alignUp b + (TAG_SIZE + 8 * BIN_COUNT + ALIGN) := by
          unfold TAG_SIZE BIN_COUNT ALIGN at *
          omega
        rw [hda]
        have htop : isChunkSize (alignUp b + TAG_SIZE + 8 * BIN_COUNT)
            (alignUp b + (TAG_SIZE + 8 * BIN_COUNT + ALIGN)) = false := by
          unfold isChunkSize TAG_SIZE BIN_COUNT ALIGN MIN_CHUNK_SIZE
          simp
        rw [htop]
        simp only [Bool.false_eq_true, if_false]
        unfold TAG_SIZE BIN_COUNT ALIGN
        norm_num
    · rw [if_neg hcap]
      constructor
      · constructor
        · intro _
          unfold TAG_SIZE BIN_COUNT at hcap ⊢
          omega
        · intro _; rfl
      · intro hint
        unfold TAG_SIZE BIN_COUNT at hint hcap
        unfold ALIGN at hint
        omega
  · rw [if_neg hba]
    constructor
    · constructor
      · intro _
        unfold TAG_SIZE BIN_COUNT
        omega
      · intro _; rfl
    · intro hint
      unfold TAG_SIZE BIN_COUNT ALIGN at hint
      omega

/-- Witness for C5 (amended) at the arena `[8, 1048)`: aligned interior
1040 bytes — one word beyond the exact fit — initialized non-empty with
only the metadata chunk. -/
theorem init_empty_iff_witness :
    initChunk ⟨8, 1048⟩ = some ⟨⟨8, 1048⟩, 8, 1048,
      [⟨8, 8 + (TAG_SIZE + 8 * BIN_COUNT), false⟩]⟩ := by
  have h := (init_empty_iff 8 1048 (by decide) (by decide)).2 (by decide)
  simpa using h

end TalcModel
namespace TalcModel

theorem lastFree_concat (l : List Chunk) (c : Chunk) :
    lastFree (l ++ [c]) = c.free := by
  simp [lastFree, List.getLast?_concat]

theorem lastFree_cons_of_ne (x : Chunk) (l : List Chunk) (h : l ≠ []) :
    lastFree (x :: l) = lastFree l := by
  cases l with
  | nil => exact absurd rfl h
  | cons y t => simp [lastFree, List.getLast?_cons_cons]

theorem getLast?_cons_of_ne (x : Chunk) (l : List Chunk) (h : l ≠ []) :
    (x :: l).getLast? = l.getLast? := by
  cases l with
  | nil => exact absurd rfl h
  | cons y t => simp [List.getLast?_cons_cons]

theorem lastFree_cons_concat (x : Chunk) (l : List Chunk) (c : Chunk) :
    lastFree (x :: (l ++ [c])) = c.free := by
  rw [lastFree_cons_of_ne _ _ (by simp), lastFree_concat]

theorem lastFree_cons_cons_concat (x y : Chunk) (l : List Chunk) (c : Chunk) :
    lastFree (x :: y :: (l ++ [c])) = c.free := by
  rw [lastFree_cons_of_ne _ _ (by simp), lastFree_cons_concat]

theorem getLast?_cons_concat (x : Chunk) (l : List Chunk) (c : Chunk) :
    (x :: (l ++ [c])).getLast? = some c := by
  rw [getLast?_cons_of_ne _ _ (by simp), List.getLast?_concat]

theorem getLast?_cons_cons_concat (x y : Chunk) (l : List Chunk) (c : Chunk) :
    (x :: y :: (l ++ [c])).getLast? = some c := by
  rw [getLast?_cons_of_ne _ _ (by simp), getLast?_cons_concat]

theorem freeTop_mk (ar : Span) (ab aa : Nat) (l : List Chunk) :
    freeTop ⟨ar, ab, aa, l⟩ = lastFree l := rfl

theorem lastFree_cons_congr (x y : Chunk) (l : List Chunk)
    (h : x.free = y.free) : lastFree (x :: l) = lastFree (y :: l) := by
  cases l with
  | nil => simp [lastFree, h]
  | cons z t =>
    rw [lastFree_cons_of_ne x (z :: t) (by simp),
      lastFree_cons_of_ne y (z :: t) (by simp)]

/-- C4 (amended): on `extend(new_arena)` with a non-degenerate allocatable
span, at the top end: if `is_top_free` the top free chunk is re-registered
extended to the new acme; otherwise a fresh top free chunk is registered
(and `is_top_free` set) exactly when the gained space strictly exceeds
`MIN_CHUNK` — a gain of exactly `MIN_CHUNK` or less is absorbed by leaving
the acme at its old value.  Symmetrically at the bottom end. -/
theorem extend_ends_behavior (s : HeapState) (newArena : Span) (s' : HeapState)
    (hspan : isChunkSize s.abase s.aacme = true)
    (hne : s.chunks ≠ [])
    (h : extendChunk s newArena = some s') :
    (freeTop s = true →
      s'.aacme = alignDown newArena.acme ∧ freeTop s' = true) ∧
    (freeTop s = false →
      (MIN_CHUNK_SIZE < alignDown newArena.acme - s.aacme →
        s'.aacme = alignDown newArena.acme ∧
        s'.chunks.getLast? = some ⟨s.aacme, alignDown newArena.acme, true⟩) ∧
      (alignDown newArena.acme - s.aacme ≤ MIN_CHUNK_SIZE →
        s'.aacme = s.aacme ∧ lastFree s'.chunks = lastFree s.chunks)) ∧
    (headFree s.chunks = true →
      s'.abase = alignUp newArena.base ∧ headFree s'.chunks = true) ∧
    (headFree s.chunks = false →
      (MIN_CHUNK_SIZE < s.abase - alignUp newArena.base →
        s'.abase = alignUp newArena.base ∧
        s'.chunks.head? = some ⟨alignUp newArena.base, s.abase, true⟩) ∧
      (s.abase - alignUp newArena.base ≤ MIN_CHUNK_SIZE →
        s'.abase = s.abase ∧ headFree s'.chunks = headFree s.chunks)) := by
  unfold extendChunk at h
  match hc1 : newArena.containsSpan s.arena with
  | false => rw [hc1] at h; simp at h
  | true =>
  rw [hc1] at h
  simp only [Bool.not_true, Bool.false_eq_true, if_false] at h
  match hc2 : newArena.contains 0 with
  | true => rw [hc2] at h; simp at h
  | false =>
  rw [hc2] at h
  simp only [Bool.false_eq_true, if_false] at h
  rw [hspan] at h
  simp only [Bool.not_true, Bool.false_eq_true, if_false] at h
  simp only [Span.wordAlignInward, Span.getBaseAcme] at h
  by_cases hba : alignUp newArena.base < alignDown newArena.acme
  case neg => rw [if_neg hba] at h; simp at h
  case pos =>
  rw [if_pos hba] at h
  dsimp only at h
  by_cases hmin : MIN_CHUNK_SIZE ≤ alignDown newArena.acme - alignUp newArena.base
  case neg => rw [if_neg (by simpa using hmin)] at h; simp at h
  case pos =>
  rw [if_pos (by simpa using hmin)] at h
  simp only [Option.some.injEq] at h
  subst h
  match hch : s.chunks with
  | [] => exact absurd hch hne
  | b0 :: rest0 =>
  by_cases hft : freeTop s = true
  case pos =>
    rw [hft]
    have hftv : lastFree (b0 :: rest0) = true := by
      unfold freeTop at hft
      rw [hch] at hft
      exact hft
    match rest0 with
    | [] =>
      have hb0f : b0.free = true := by simpa [lastFree] using hftv
      simp only [extendTop, if_true, List.getLast?_singleton,
        List.dropLast_single, List.nil_append, extendBottom]
      refine ⟨?_, ?_, ?_, ?_⟩
      · intro _
        exact ⟨by simp, by simp [freeTop_mk, lastFree]⟩
      · intro hcontra
        exact absurd hcontra (by simp [hft])
      · intro _
        exact ⟨by simp, by simp [headFree]⟩
      · intro hhf
        exact absurd hhf (by simp [headFree, hb0f])
    | r1 :: rest1 =>
      match hgl : (b0 :: r1 :: rest1).getLast? with
      | none => simp at hgl
      | some top =>
      simp only [extendTop, if_true, hgl, List.dropLast_cons₂,
        List.cons_append, extendBottom]
      by_cases hb0 : b0.free = true
      · rw [if_pos hb0]
        refine ⟨?_, ?_, ?_, ?_⟩
        · intro _
          refine ⟨by simp, ?_⟩
          simp only [freeTop_mk]
          rw [lastFree_cons_concat]
        · intro hcontra
          exact absurd hcontra (by simp [hft])
        · intro _
          exact ⟨by simp, by simp [headFree]⟩
        · intro hhf
          exact absurd hhf (by simp [headFree, hb0])
      · rw [if_neg hb0]
        by_cases hgb : MIN_CHUNK_SIZE < s.abase - alignUp newArena.base
        · rw [if_pos hgb]
          refine ⟨?_, ?_, ?_, ?_⟩
          · intro _
            refine ⟨by simp, ?_⟩
            simp only [freeTop_mk]
            rw [lastFree_cons_cons_concat]
          · intro hcontra
            exact absurd hcontra (by simp [hft])
          · intro hhd
            simp [headFree] at hhd
            exact absurd hhd hb0
          · intro _
            refine ⟨fun _ => ⟨by simp, by simp⟩, fun hle => ?_⟩
            omega
        · rw [if_neg hgb]
          refine ⟨?_, ?_, ?_, ?_⟩
          · intro _
            refine ⟨by simp, ?_⟩
            simp only [freeTop_mk]
            rw [lastFree_cons_concat]
          · intro hcontra
            exact absurd hcontra (by simp [hft])
          · intro hhd
            simp [headFree] at hhd
            exact absurd hhd hb0
          · intro _
            refine ⟨fun hgt => absurd hgt hgb,
              fun _ => ⟨by simp, by simp [headFree]⟩⟩
  case neg =>
    have hfts : freeTop s = false := by simpa using hft
    rw [hfts]
    have hftv : lastFree (b0 :: rest0) = false := by
      unfold freeTop at hfts
      rw [hch] at hfts
      exact hfts
    by_cases hgain : MIN_CHUNK_SIZE < alignDown newArena.acme - s.aacme
    · simp only [extendTop, Bool.false_eq_true, if_false, if_pos hgain,
        List.cons_append, extendBottom]
      by_cases hb0 : b0.free = true
      · rw [if_pos hb0]
        refine ⟨?_, ?_, ?_, ?_⟩
        · intro hcontra
          exact hcontra.elim
        · intro _
          refine ⟨fun _ => ⟨by simp, ?_⟩, fun hle => by omega⟩
          simp only []
          rw [getLast?_cons_concat]
        · intro _
          exact ⟨by simp, by simp [headFree]⟩
        · intro hhf
          exact absurd hhf (by simp [headFree, hb0])
      · rw [if_neg hb0]
        by_cases hgb : MIN_CHUNK_SIZE < s.abase - alignUp newArena.base
        · rw [if_pos hgb]
          refine ⟨?_, ?_, ?_, ?_⟩
          · intro hcontra
            exact hcontra.elim
          · intro _
            refine ⟨fun _ => ⟨by simp, ?_⟩, fun hle => by omega⟩
            simp only []
            rw [getLast?_cons_cons_concat]
          · intro hhd
            simp [headFree] at hhd
            exact absurd hhd hb0
          · intro _
            refine ⟨fun _ => ⟨by simp, by simp⟩, fun hle => by omega⟩
        · rw [if_neg hgb]
          refine ⟨?_, ?_, ?_, ?_⟩
          · intro hcontra
            exact hcontra.elim
          · intro _
            refine ⟨fun _ => ⟨by simp, ?_⟩, fun hle => by omega⟩
            simp only []
            rw [getLast?_cons_concat]
          · intro hhd
            simp [headFree] at hhd
            exact absurd hhd hb0
          · intro _
            refine ⟨fun hgt => absurd hgt hgb,
              fun _ => ⟨by simp, by simp [headFree]⟩⟩
    · simp only [extendTop, Bool.false_eq_true, if_false, if_neg hgain,
        extendBottom]
      by_cases hb0 : b0.free = true
      · rw [if_pos hb0]
        refine ⟨?_, ?_, ?_, ?_⟩
        · intro hcontra
          exact hcontra.elim
        · intro _
          refine ⟨fun hgt => absurd hgt hgain, fun _ => ⟨by simp, ?_⟩⟩
          simp only [freeTop_mk]
          exact lastFree_cons_congr _ _ _ (by simp [hb0])
        · intro _
          exact ⟨by simp, by simp [headFree]⟩
        · intro hhf
          exact absurd hhf (by simp [headFree, hb0])
      · rw [if_neg hb0]
        by_cases hgb : MIN_CHUNK_SIZE < s.abase - alignUp newArena.base
        · rw [if_pos hgb]
          refine ⟨?_, ?_, ?_, ?_⟩
          · intro hcontra
            exact hcontra.elim
          · intro _
            refine ⟨fun hgt => absurd hgt hgain, fun _ => ⟨by simp, ?_⟩⟩
            simp only [freeTop_mk]
            rw [lastFree_cons_of_ne _ _ (by simp)]
          · intro hhd
            simp [headFree] at hhd
            exact absurd hhd hb0
          · intro _
            refine ⟨fun _ => ⟨by simp, by simp⟩, fun hle => by omega⟩
        · rw [if_neg hgb]
          refine ⟨?_, ?_, ?_, ?_⟩
          · intro hcontra
            exact hcontra.elim
          · intro _
            refine ⟨fun hgt => absurd hgt hgain, fun _ => ⟨by simp, by simp⟩⟩
          · intro hhd
            simp [headFree] at hhd
            exact absurd hhd hb0
          · intro _
            refine ⟨fun hgt => absurd hgt hgb, fun _ => ⟨by simp, by simp⟩⟩

end TalcModel
namespace TalcModel

/-- Witness for C4 (amended): extending the metadata-only heap by 40 bytes
(top not free, gain strictly above `MIN_CHUNK_SIZE`) registers the fresh
top free chunk `[1040, 1080)` and raises the acme. -/
theorem extend_ends_behavior_witness :
    (HeapState.mk ⟨8, 1080⟩ 8 1080
        [⟨8, 1040, false⟩, ⟨1040, 1080, true⟩]).aacme =
      alignDown (Span.mk 8 1080).acme ∧
    (HeapState.mk ⟨8, 1080⟩ 8 1080
        [⟨8, 1040, false⟩, ⟨1040, 1080, true⟩]).chunks.getLast? =
      some ⟨metadataOnlyState.aacme, alignDown (Span.mk 8 1080).acme, true⟩ :=
  ((extend_ends_behavior metadataOnlyState ⟨8, 1080⟩
      ⟨⟨8, 1080⟩, 8, 1080, [⟨8, 1040, false⟩, ⟨1040, 1080, true⟩]⟩
      (by decide) (by decide) (by decide)).2.1 (by decide)).1 (by decide)

end TalcModel
namespace TalcModel

theorem noAdjFree_cons (x : Chunk) (l : List Chunk) :
    noAdjFree (x :: l) = (!(x.free && headFree l) && noAdjFree l) := by
  cases l with
  | nil => simp [noAdjFree, headFree]
  | cons y t => simp [noAdjFree, headFree]

theorem headFree_append (xs ys : List Chunk) (h : xs ≠ []) :
    headFree (xs ++ ys) = headFree xs := by
  cases xs with
  | nil => exact absurd rfl h
  | cons x t => simp [headFree]

theorem noAdjFree_append (xs ys : List Chunk) :
    noAdjFree (xs ++ ys) =
      (noAdjFree xs && noAdjFree ys && !(lastFree xs && headFree ys)) := by
  induction xs with
  | nil => simp [noAdjFree, lastFree]
  | cons x t ih =>
    cases t with
    | nil =>
      simp only [List.singleton_append, noAdjFree_cons]
      simp [noAdjFree, lastFree]
      cases x.free <;> cases headFree ys <;> cases noAdjFree ys <;>
        simp [headFree]
    | cons y t2 =>
      rw [List.cons_append, noAdjFree_cons, noAdjFree_cons x (y :: t2)]
      rw [headFree_append (y :: t2) ys (by simp)]
      rw [ih, lastFree_cons_of_ne x (y :: t2) (by simp)]
      simp [Bool.and_assoc]

end TalcModel
namespace TalcModel

theorem noAdjFree_glue (pre mid post : List Chunk)
    (hpre : noAdjFree pre = true) (hpost : noAdjFree post = true)
    (hmid : noAdjFree mid = true) (hmne : mid ≠ [])
    (h1 : lastFree pre = false ∨ headFree mid = false)
    (h2 : lastFree mid = false ∨ headFree post = false) :
    noAdjFree (pre ++ mid ++ post) = true := by
  rw [List.append_assoc, noAdjFree_append, noAdjFree_append,
    headFree_append mid post hmne]
  rcases h1 with h1 | h1 <;> rcases h2 with h2 | h2 <;>
    simp [hpre, hpost, hmid, h1, h2]

theorem noAdjFree_tail (x : Chunk) (l : List Chunk)
    (h : noAdjFree (x :: l) = true) : noAdjFree l = true := by
  rw [noAdjFree_cons] at h
  exact (Bool.and_eq_true_iff.mp h).2

theorem noAdjFree_dropLast (l : List Chunk)
    (h : noAdjFree l = true) : noAdjFree l.dropLast = true := by
  match hl : l with
  | [] => simpa using h
  | x :: t =>
    have hne : l ≠ [] := by rw [hl]; simp
    rw [← hl] at h ⊢
    rw [← List.dropLast_append_getLast hne, noAdjFree_append] at h
    exact ((Bool.and_eq_true_iff.mp (Bool.and_eq_true_iff.mp h).1).1)

theorem noAdjFree_middle (pre : List Chunk) (c : Chunk) (post : List Chunk)
    (h : noAdjFree (pre ++ c :: post) = true) :
    noAdjFree pre = true ∧ noAdjFree post = true ∧
    (lastFree pre && c.free) = false ∧ (c.free && headFree post) = false := by
  rw [noAdjFree_append, noAdjFree_cons] at h
  have hh : headFree (c :: post) = c.free := rfl
  rw [hh] at h
  simp only [Bool.and_eq_true_iff] at h
  obtain ⟨⟨hpre, hnc, hpost⟩, hlast⟩ := h
  refine ⟨hpre, hpost, ?_, ?_⟩
  · cases hv : (lastFree pre && c.free)
    · rfl
    · rw [hv] at hlast; simp at hlast
  · cases hv : (c.free && headFree post)
    · rfl
    · rw [hv] at hnc; simp at hnc

end TalcModel
namespace TalcModel

theorem noAdjFree_init (arena : Span) (s' : HeapState)
    (h : initChunk arena = some s') : noAdjFree s'.chunks = true := by
  unfold initChunk at h
  match hc : arena.contains 0 with
  | true => rw [hc] at h; simp at h
  | false =>
  rw [hc] at h
  simp only [Bool.false_eq_true, if_false] at h
  match hg : (arena.wordAlignInward).getBaseAcme with
  | none =>
    rw [hg] at h
    dsimp only at h
    simp only [Option.some.injEq] at h
    subst h
    rfl
  | some (b, a) =>
    rw [hg] at h
    dsimp only at h
    by_cases hov : 8 - 1 + TAG_SIZE ≤ 2 ^ 64 - 1 - b
    case neg =>
      rw [if_neg hov] at h
      simp only [Option.some.injEq] at h
      subst h
      rfl
    case pos =>
      rw [if_pos hov] at h
      by_cases hcap : 8 * BIN_COUNT < a - alignUpBy (b + TAG_SIZE) 8
      case neg =>
        rw [if_neg hcap] at h
        simp only [Option.some.injEq] at h
        subst h
        rfl
      case pos =>
        rw [if_pos hcap] at h
        simp only [Option.some.injEq] at h
        subst h
        by_cases htop : isChunkSize (alignUpBy (b + TAG_SIZE) 8 + 8 * BIN_COUNT) a = true
        · simp only [htop, if_true]
          simp [noAdjFree]
        · simp only [htop, if_false]
          simp [noAdjFree]

theorem noAdjFree_malloc (s : HeapState) (cb : Nat) (layout : Layout)
    (s1 : HeapState) (p : Nat)
    (hs : noAdjFree s.chunks = true)
    (h : mallocChunk s cb layout = some (s1, p)) :
    noAdjFree s1.chunks = true := by
  unfold mallocChunk at h
  match hf : focus s.chunks cb with
  | none => rw [hf] at h; simp at h
  | some (pre, c, post) =>
  rw [hf] at h
  dsimp only at h
  obtain ⟨hl, _⟩ := focus_eq _ _ _ _ _ hf
  rw [hl] at hs
  obtain ⟨hpre, hpost, hlc, hcp⟩ := noAdjFree_middle _ _ _ hs
  by_cases hguard : c.free && chunkFits c layout
  case neg => rw [if_neg hguard] at h; simp at h
  case pos =>
  rw [if_pos hguard] at h
  have hcf : c.free = true := by
    simp only [Bool.and_eq_true_iff] at hguard
    exact hguard.1
  have hlp : lastFree pre = false := by
    rw [hcf] at hlc
    simpa using hlc
  have hpp : headFree post = false := by
    rw [hcf] at hcp
    simpa using hcp
  simp only [Option.some.injEq, Prod.mk.injEq] at h
  obtain ⟨hs1, _⟩ := h
  subst hs1
  simp only
  by_cases hlow : isChunkSize c.base
      ((c.acme - MIN_CHUNK_SIZE) ⊓ alignDown (allocBaseOf c layout - TAG_SIZE))
      = true
  · simp only [hlow, if_true]
    by_cases hhigh : isChunkSize
        (requiredAcme (allocBaseOf c layout) layout.size
          ((c.acme - MIN_CHUNK_SIZE) ⊓
            alignDown (allocBaseOf c layout - TAG_SIZE))) c.acme = true
    · simp only [hhigh, if_true, List.cons_append, List.nil_append,
        List.singleton_append]
      exact noAdjFree_glue pre _ post hpre hpost (by simp [noAdjFree])
        (by simp) (Or.inl hlp) (Or.inr hpp)
    · simp only [hhigh, if_false, List.singleton_append]
      exact noAdjFree_glue pre _ post hpre hpost (by simp [noAdjFree])
        (by simp) (Or.inl hlp) (Or.inl (by simp [lastFree]))
  · simp only [hlow, Bool.false_eq_true, if_false,
      List.nil_append]
    by_cases hhigh : isChunkSize
        (requiredAcme (allocBaseOf c layout) layout.size c.base) c.acme = true
    · simp only [hhigh, if_true, List.nil_append]
      exact noAdjFree_glue pre _ post hpre hpost (by simp [noAdjFree])
        (by simp) (Or.inr (by simp [headFree])) (Or.inr hpp)
    · simp only [hhigh, if_false, List.nil_append]
      exact noAdjFree_glue pre _ post hpre hpost (by simp [noAdjFree])
        (by simp) (Or.inr (by simp [headFree])) (Or.inl (by simp [lastFree]))

end TalcModel
namespace TalcModel

theorem freeUp_spec (cAcme : Nat) (post : List Chunk)
    (hpost : noAdjFree post = true) :
    noAdjFree (freeUp cAcme post).2 = true ∧
    headFree (freeUp cAcme post).2 = false := by
  match post with
  | [] => exact ⟨rfl, rfl⟩
  | above :: rest =>
    by_cases haf : above.free = true
    · simp only [freeUp, if_pos haf]
      refine ⟨noAdjFree_tail _ _ hpost, ?_⟩
      rw [noAdjFree_cons] at hpost
      simp only [haf, Bool.and_eq_true_iff] at hpost
      simpa using hpost.1
    · simp only [freeUp, if_neg haf]
      refine ⟨hpost, ?_⟩
      simp only [headFree]
      simpa using haf

theorem freeDown_spec (cBase : Nat) (pre : List Chunk)
    (hpre : noAdjFree pre = true) :
    noAdjFree (freeDown cBase pre).2 = true ∧
    lastFree (freeDown cBase pre).2 = false := by
  match hgl : pre.getLast? with
  | none =>
    simp only [freeDown, hgl]
    refine ⟨hpre, ?_⟩
    unfold lastFree
    rw [hgl]
  | some below =>
    have hne : pre ≠ [] := by
      intro hcon
      rw [hcon] at hgl
      simp at hgl
    have hlb : lastFree pre = below.free := by
      unfold lastFree
      rw [hgl]
    by_cases hbf : below.free = true
    · simp only [freeDown, hgl, if_pos hbf]
      refine ⟨noAdjFree_dropLast _ hpre, ?_⟩
      have hsplit : pre.dropLast ++ [below] = pre := by
        have h1 := List.dropLast_append_getLast hne
        have h2 := List.getLast?_eq_getLast pre hne
        rw [hgl] at h2
        injection h2 with h2
        rw [← h2] at h1
        exact h1
      rw [← hsplit, noAdjFree_append] at hpre
      simp only [Bool.and_eq_true_iff] at hpre
      have := hpre.2
      cases hv : lastFree pre.dropLast
      · rfl
      · rw [hv] at this
        simp [hbf, headFree] at this
    · simp only [freeDown, hgl, if_neg hbf]
      exact ⟨hpre, by rw [hlb]; simpa using hbf⟩

theorem noAdjFree_freeChunk (s : HeapState) (cb : Nat) (layout : Layout)
    (s1 : HeapState)
    (hs : noAdjFree s.chunks = true)
    (h : freeChunk s cb layout = some s1) :
    noAdjFree s1.chunks = true := by
  unfold freeChunk at h
  match hf : focus s.chunks cb with
  | none => rw [hf] at h; simp at h
  | some (pre, c, post) =>
  rw [hf] at h
  dsimp only at h
  obtain ⟨hl, _⟩ := focus_eq _ _ _ _ _ hf
  rw [hl] at hs
  obtain ⟨hpre, hpost, _, _⟩ := noAdjFree_middle _ _ _ hs
  match hcf : c.free with
  | true => rw [hcf] at h; simp at h
  | false =>
  rw [hcf] at h
  simp only [Bool.false_eq_true, if_false, Option.some.injEq] at h
  subst h
  simp only
  obtain ⟨hd1, hd2⟩ := freeDown_spec c.base pre hpre
  obtain ⟨hu1, hu2⟩ := freeUp_spec c.acme post hpost
  have : (freeDown c.base pre).2 ++
      Chunk.mk (freeDown c.base pre).1 (freeUp c.acme post).1 true ::
        (freeUp c.acme post).2 =
      (freeDown c.base pre).2 ++
        [Chunk.mk (freeDown c.base pre).1 (freeUp c.acme post).1 true] ++
          (freeUp c.acme post).2 := by simp
  rw [this]
  exact noAdjFree_glue _ _ _ hd1 hu1 (by simp [noAdjFree]) (by simp)
    (Or.inl hd2) (Or.inr hu2)

end TalcModel
namespace TalcModel

theorem noAdjFree_shrink (s : HeapState) (cb ptr : Nat) (layout : Layout)
    (newSize : Nat) (s1 : HeapState)
    (hs : noAdjFree s.chunks = true)
    (h : shrinkChunk s cb ptr layout newSize = some s1) :
    noAdjFree s1.chunks = true := by
  unfold shrinkChunk at h
  match hf : focus s.chunks cb with
  | none => rw [hf] at h; simp at h
  | some (pre, c, post) =>
  rw [hf] at h
  dsimp only at h
  obtain ⟨hl, _⟩ := focus_eq _ _ _ _ _ hf
  rw [hl] at hs
  obtain ⟨hpre, hpost, _, _⟩ := noAdjFree_middle _ _ _ hs
  match hcf : c.free with
  | true => rw [hcf] at h; simp at h
  | false =>
  rw [hcf] at h
  simp only [Bool.false_eq_true, if_false] at h
  by_cases hbig : isChunkSize
      (max (alignUp (ptr + layout.size)) (c.base + MIN_CHUNK_SIZE)) c.acme = true
  · rw [if_pos hbig] at h
    simp only [Option.some.injEq] at h
    subst h
    simp only
    obtain ⟨hu1, hu2⟩ := freeUp_spec c.acme post hpost
    have hrw : pre ++
        Chunk.mk c.base
            (max (alignUp (ptr + layout.size)) (c.base + MIN_CHUNK_SIZE))
            false ::
          Chunk.mk (max (alignUp (ptr + layout.size))
              (c.base + MIN_CHUNK_SIZE)) (freeUp c.acme post).1 true ::
            (freeUp c.acme post).2 =
        pre ++
          [Chunk.mk c.base
            (max (alignUp (ptr + layout.size)) (c.base + MIN_CHUNK_SIZE))
            false,
           Chunk.mk (max (alignUp (ptr + layout.size))
              (c.base + MIN_CHUNK_SIZE)) (freeUp c.acme post).1 true] ++
            (freeUp c.acme post).2 := by simp
    rw [hrw]
    exact noAdjFree_glue _ _ _ hpre hu1 (by simp [noAdjFree]) (by simp)
      (Or.inr (by simp [headFree])) (Or.inr hu2)
  · rw [if_neg hbig] at h
    simp only [Option.some.injEq] at h
    subst h
    rw [hl]
    exact hs

theorem noAdjFree_growRealloc (s : HeapState) (cb ptr : Nat)
    (layout : Layout) (newSize fallbackCb : Nat) (s1 : HeapState) (p : Nat)
    (hs : noAdjFree s.chunks = true)
    (h : growRealloc s cb ptr layout newSize fallbackCb = some (s1, p)) :
    noAdjFree s1.chunks = true := by
  unfold growRealloc at h
  match hm : mallocChunk s fallbackCb ⟨newSize, layout.align⟩ with
  | none => rw [hm] at h; simp at h
  | some (sm, np) =>
  rw [hm] at h
  dsimp only at h
  match hfr : freeChunk sm cb layout with
  | none => rw [hfr] at h; simp at h
  | some s2 =>
  rw [hfr] at h
  simp only [Option.some.injEq, Prod.mk.injEq] at h
  obtain ⟨h2, _⟩ := h
  subst h2
  exact noAdjFree_freeChunk sm cb layout _
    (noAdjFree_malloc s fallbackCb ⟨newSize, layout.align⟩ sm np hs hm) hfr

theorem noAdjFree_grow (s : HeapState) (cb ptr : Nat) (layout : Layout)
    (newSize fallbackCb : Nat) (s1 : HeapState) (p : Nat)
    (hs : noAdjFree s.chunks = true)
    (h : growChunk s cb ptr layout newSize fallbackCb = some (s1, p)) :
    noAdjFree s1.chunks = true := by
  unfold growChunk at h
  match hf : focus s.chunks cb with
  | none => rw [hf] at h; simp at h
  | some (pre, c, post) =>
  rw [hf] at h
  dsimp only at h
  obtain ⟨hl, _⟩ := focus_eq _ _ _ _ _ hf
  match hcf : c.free with
  | true => rw [hcf] at h; simp at h
  | false =>
  rw [hcf] at h
  simp only [Bool.false_eq_true, if_false] at h
  by_cases hnoop : max (alignUp (ptr + newSize)) (c.base + MIN_CHUNK_SIZE) ≤
      c.acme
  · rw [if_pos hnoop] at h
    simp only [Option.some.injEq, Prod.mk.injEq] at h
    obtain ⟨h1, _⟩ := h
    subst h1
    exact hs
  · rw [if_neg hnoop] at h
    match hpo : post with
    | [] =>
      exact noAdjFree_growRealloc s cb ptr layout newSize fallbackCb s1 p hs h
    | above :: rest =>
      dsimp only at h
      by_cases hcond : (above.free &&
          decide (max (alignUp (ptr + newSize)) (c.base + MIN_CHUNK_SIZE) ≤
            above.acme)) = true
      case neg =>
        rw [if_neg hcond] at h
        exact noAdjFree_growRealloc s cb ptr layout newSize fallbackCb
          s1 p hs h
      case pos =>
        rw [if_pos hcond] at h
        simp only [Bool.and_eq_true_iff, decide_eq_true_eq] at hcond
        obtain ⟨haf, _⟩ := hcond
        rw [hl] at hs
        obtain ⟨hpre, hpost, _, _⟩ := noAdjFree_middle _ _ _ hs
        have hrest : noAdjFree rest = true := noAdjFree_tail _ _ hpost
        have hhr : headFree rest = false := by
          rw [noAdjFree_cons] at hpost
          simp only [haf, Bool.and_eq_true_iff] at hpost
          simpa using hpost.1
        unfold growInPlace at h
        rw [hf] at h
        dsimp only at h
        by_cases hbig : isChunkSize
            (max (alignUp (ptr + newSize)) (c.base + MIN_CHUNK_SIZE))
            above.acme = true
        · rw [if_pos hbig] at h
          simp only [Option.some.injEq, Prod.mk.injEq] at h
          obtain ⟨h1, _⟩ := h
          subst h1
          simp only
          exact noAdjFree_glue _ _ _ hpre hrest (by simp [noAdjFree])
            (by simp) (Or.inr (by simp [headFree])) (Or.inr hhr)
        · rw [if_neg hbig] at h
          simp only [Option.some.injEq, Prod.mk.injEq] at h
          obtain ⟨h1, _⟩ := h
          subst h1
          simp only
          exact noAdjFree_glue _ _ _ hpre hrest (by simp [noAdjFree])
            (by simp) (Or.inr (by simp [headFree]))
            (Or.inl (by simp [lastFree]))

end TalcModel
namespace TalcModel

theorem dropLast_lastFree_false (l : List Chunk) (c : Chunk)
    (hgl : l.getLast? = some c) (hcf : c.free = true)
    (hl : noAdjFree l = true) : lastFree l.dropLast = false := by
  have hne : l ≠ [] := by
    intro hcon
    rw [hcon] at hgl
    simp at hgl
  have hsplit : l.dropLast ++ [c] = l := by
    have h1 := List.dropLast_append_getLast hne
    have h2 := List.getLast?_eq_getLast l hne
    rw [hgl] at h2
    injection h2 with h2
    rw [← h2] at h1
    exact h1
  rw [← hsplit, noAdjFree_append] at hl
  simp only [Bool.and_eq_true_iff] at hl
  have := hl.2
  cases hv : lastFree l.dropLast
  · rfl
  · rw [hv] at this
    simp [hcf, headFree] at this

theorem extendTop_noAdj (acme oldAcme : Nat) (tf : Bool) (l : List Chunk)
    (htf : tf = lastFree l) (hl : noAdjFree l = true) :
    noAdjFree (extendTop acme oldAcme tf l).2 = true := by
  by_cases htfv : tf = true
  · subst htfv
    match hgl : l.getLast? with
    | none =>
      simp only [extendTop, if_true, hgl]
      exact hl
    | some top =>
      simp only [extendTop, if_true, hgl]
      have htopf : top.free = true := by
        unfold lastFree at htf
        rw [hgl] at htf
        exact htf.symm
      rw [noAdjFree_append]
      simp [noAdjFree_dropLast l hl,
        dropLast_lastFree_false l top hgl htopf hl, noAdjFree]
  · have htfv2 : tf = false := by simpa using htfv
    subst htfv2
    by_cases hgain : MIN_CHUNK_SIZE < acme - oldAcme
    · simp only [extendTop, Bool.false_eq_true, if_false, if_pos hgain]
      rw [noAdjFree_append]
      simp [hl, noAdjFree, htf.symm]
    · simp only [extendTop, Bool.false_eq_true, if_false, if_neg hgain]
      exact hl

theorem extendBottom_noAdj (base oldBase : Nat) (l : List Chunk)
    (hl : noAdjFree l = true) :
    noAdjFree (extendBottom base oldBase l).2 = true := by
  match l with
  | [] => simpa [extendBottom] using hl
  | bottom :: rest =>
    by_cases hbf : bottom.free = true
    · simp only [extendBottom, if_pos hbf]
      rw [noAdjFree_cons] at hl ⊢
      simp only [Bool.and_eq_true_iff] at hl
      simp only [hbf] at hl
      have hhr : headFree rest = false := by simpa using hl.1
      simp [hl.2, hhr]
    · simp only [extendBottom, if_neg hbf]
      by_cases hgain : MIN_CHUNK_SIZE < oldBase - base
      · rw [if_pos hgain]
        rw [noAdjFree_cons]
        simp only [headFree]
        simp [hl, (by simpa using hbf : bottom.free = false)]
      · rw [if_neg hgain]
        exact hl

theorem noAdjFree_extend (s : HeapState) (newArena : Span) (s1 : HeapState)
    (hs : noAdjFree s.chunks = true)
    (h : extendChunk s newArena = some s1) :
    noAdjFree s1.chunks = true := by
  unfold extendChunk at h
  match hc1 : newArena.containsSpan s.arena with
  | false => rw [hc1] at h; simp at h
  | true =>
  rw [hc1] at h
  simp only [Bool.not_true, Bool.false_eq_true, if_false] at h
  match hc2 : newArena.contains 0 with
  | true => rw [hc2] at h; simp at h
  | false =>
  rw [hc2] at h
  simp only [Bool.false_eq_true, if_false] at h
  match hsp : isChunkSize s.abase s.aacme with
  | false =>
    rw [hsp] at h
    simp only [Bool.not_false, if_true] at h
    exact noAdjFree_init newArena s1 h
  | true =>
  rw [hsp] at h
  simp only [Bool.not_true, Bool.false_eq_true, if_false] at h
  match hg : ((newArena.wordAlignInward).getBaseAcme) with
  | none => rw [hg] at h; simp at h
  | some (base, acme) =>
  rw [hg] at h
  dsimp only at h
  by_cases hmin : MIN_CHUNK_SIZE ≤ acme - base
  case neg => rw [if_neg (by simpa using hmin)] at h; simp at h
  case pos =>
  rw [if_pos (by simpa using hmin)] at h
  simp only [Option.some.injEq] at h
  subst h
  simp only
  exact extendBottom_noAdj base s.abase _
    (extendTop_noAdj acme s.aacme (freeTop s) s.chunks rfl hs)

end TalcModel
namespace TalcModel

theorem truncTop_noAdj (newAcme oldAcme : Nat) (l : List Chunk)
    (a1 : Nat) (l1 : List Chunk)
    (hl : noAdjFree l = true)
    (h : truncTop newAcme oldAcme l = some (a1, l1)) :
    noAdjFree l1 = true := by
  unfold truncTop at h
  by_cases hlt : newAcme < oldAcme
  case neg =>
    rw [if_neg hlt] at h
    simp only [Option.some.injEq, Prod.mk.injEq] at h
    obtain ⟨_, h2⟩ := h
    subst h2
    exact hl
  case pos =>
  rw [if_pos hlt] at h
  match hgl : l.getLast? with
  | none => rw [hgl] at h; simp at h
  | some top =>
  rw [hgl] at h
  dsimp only at h
  match htf : top.free with
  | false => rw [htf] at h; simp at h
  | true =>
  rw [htf] at h
  simp only [if_true] at h
  by_cases hck : isChunkSize top.base newAcme = true
  · rw [if_pos hck] at h
    simp only [Option.some.injEq, Prod.mk.injEq] at h
    obtain ⟨_, h2⟩ := h
    subst h2
    rw [noAdjFree_append]
    simp [noAdjFree_dropLast l hl, dropLast_lastFree_false l top hgl htf hl,
      noAdjFree]
  · rw [if_neg hck] at h
    simp only [Option.some.injEq, Prod.mk.injEq] at h
    obtain ⟨_, h2⟩ := h
    subst h2
    exact noAdjFree_dropLast l hl

theorem truncBottom_noAdj (newBase oldBase : Nat) (l : List Chunk)
    (b1 : Nat) (l1 : List Chunk)
    (hl : noAdjFree l = true)
    (h : truncBottom newBase oldBase l = some (b1, l1)) :
    noAdjFree l1 = true := by
  unfold truncBottom at h
  by_cases hlt : oldBase < newBase
  case neg =>
    rw [if_neg hlt] at h
    simp only [Option.some.injEq, Prod.mk.injEq] at h
    obtain ⟨_, h2⟩ := h
    subst h2
    exact hl
  case pos =>
  rw [if_pos hlt] at h
  match l with
  | [] => simp at h
  | bottom :: rest =>
  dsimp only at h
  match hbf : bottom.free with
  | false => rw [hbf] at h; simp at h
  | true =>
  rw [hbf] at h
  simp only [if_true] at h
  rw [noAdjFree_cons] at hl
  simp only [hbf, Bool.and_eq_true_iff] at hl
  have hhr : headFree rest = false := by simpa using hl.1
  by_cases hck : isChunkSize newBase bottom.acme = true
  · rw [if_pos hck] at h
    simp only [Option.some.injEq, Prod.mk.injEq] at h
    obtain ⟨_, h2⟩ := h
    subst h2
    rw [noAdjFree_cons]
    simp [hl.2, hhr]
  · rw [if_neg hck] at h
    simp only [Option.some.injEq, Prod.mk.injEq] at h
    obtain ⟨_, h2⟩ := h
    subst h2
    exact hl.2

theorem noAdjFree_truncate (s : HeapState) (newArena : Span)
    (s1 : HeapState)
    (hs : noAdjFree s.chunks = true)
    (h : truncateChunk s newArena = some s1) :
    noAdjFree s1.chunks = true := by
  unfold truncateChunk at h
  dsimp only at h
  match hc1 : s.arena.containsSpan newArena with
  | false => rw [hc1] at h; simp at h
  | true =>
  rw [hc1] at h
  simp only [Bool.not_true, Bool.false_eq_true, if_false] at h
  match hc2 : (newArena.wordAlignInward).containsSpan (allocatedSpanChunk s) with
  | false => rw [hc2] at h; simp at h
  | true =>
  rw [hc2] at h
  simp only [Bool.not_true, Bool.false_eq_true, if_false] at h
  by_cases h0 : (s.abase = 0 || s.aacme = 0) = true
  · rw [if_pos h0] at h
    exact noAdjFree_init newArena s1 h
  · rw [if_neg h0] at h
    match hg : ((newArena.wordAlignInward).getBaseAcme) with
    | none =>
      rw [hg] at h
      exact noAdjFree_init newArena s1 h
    | some (base, acme) =>
    rw [hg] at h
    dsimp only at h
    by_cases hck : isChunkSize base acme = true
    case neg =>
      rw [if_neg hck] at h
      exact noAdjFree_init newArena s1 h
    case pos =>
    rw [if_pos hck] at h
    match htt : truncTop acme s.aacme s.chunks with
    | none => rw [htt] at h; simp at h
    | some (acme1, chunks1) =>
    rw [htt] at h
    dsimp only at h
    match htb : truncBottom base s.abase chunks1 with
    | none => rw [htb] at h; simp at h
    | some (base1, chunks2) =>
    rw [htb] at h
    simp only [Option.some.injEq] at h
    subst h
    exact truncBottom_noAdj base s.abase chunks1 base1 chunks2
      (truncTop_noAdj acme s.aacme s.chunks acme1 chunks1 hs htt) htb

/-- C2: invariant I2 — no two adjacent chunks are both free — is preserved
by every public operation that returns normally (`init`, `malloc`, `free`,
`grow`, `shrink`, `extend`, `truncate`), over every heap state and every
choice of operation arguments. -/
theorem i2_preserved (op : Op) (s s1 : HeapState)
    (hs : noAdjFree s.chunks = true) (h : applyOp op s = some s1) :
    noAdjFree s1.chunks = true := by
  cases op with
  | opInit arena => exact noAdjFree_init arena s1 h
  | opMalloc cb layout =>
    simp only [applyOp] at h
    match hm : mallocChunk s cb layout with
    | none => rw [hm] at h; simp at h
    | some (sm, p) =>
      rw [hm] at h
      simp at h
      subst h
      exact noAdjFree_malloc s cb layout _ p hs hm
  | opFree cb layout => exact noAdjFree_freeChunk s cb layout s1 hs h
  | opGrow cb ptr layout newSize fb =>
    simp only [applyOp] at h
    match hm : growChunk s cb ptr layout newSize fb with
    | none => rw [hm] at h; simp at h
    | some (sm, p) =>
      rw [hm] at h
      simp at h
      subst h
      exact noAdjFree_grow s cb ptr layout newSize fb _ p hs hm
  | opShrink cb ptr layout newSize =>
    exact noAdjFree_shrink s cb ptr layout newSize s1 hs h
  | opExtend arena => exact noAdjFree_extend s arena s1 hs h
  | opTruncate arena => exact noAdjFree_truncate s arena s1 hs h

end TalcModel
namespace TalcModel

/-- Witness for C2: freeing the middle allocation of the three-chunk heap
coalesces it with the top free chunk and leaves no two adjacent free
chunks. -/
theorem i2_preserved_witness :
    noAdjFree (HeapState.mk ⟨8, 10000⟩ 8 10000
      [⟨8, 1040, false⟩, ⟨1040, 10000, true⟩]).chunks = true :=
  i2_preserved (Op.opFree 1040 ⟨60, 8⟩) witnessState
    ⟨⟨8, 10000⟩, 8, 10000, [⟨8, 1040, false⟩, ⟨1040, 10000, true⟩]⟩
    (by decide) (by decide)

end TalcModel
